import Mathlib

set_option maxHeartbeats 2000000

/-!
Shallow embedding of `src/esop/exact_synthesis.cpp` (function
`exact_synthesis_from_binary_string`), the SAT-based exact ESOP synthesis
driver, together with the semantic notions (cube coverage, ESOP evaluation)
from the specification that the claims are stated against.

The external SAT solver, the Gauss/XOR-to-CNF/symmetry-breaking preprocessing
stages, and the kitty cube container are not part of the visible source.  The
solver together with the preprocessing pipeline is abstracted as an oracle
`solve : constraints → Option Model`; per the spec the pipeline preserves the
set of satisfying assignments over the original variables, so the oracle is
applied directly to the encoder's constraint set and the theorems assume its
soundness (returned assignments satisfy the constraint set) and, where the
claim asks for it, completeness (`none` only on unsatisfiable sets).
-/

namespace Esop

/-- Fixed-capacity cube over at most 32 variables, as in the kitty library
used by the source: `bits` holds literal polarities and `mask` marks which
variables carry a literal (both 32-bit words, represented as `Nat`). -/
structure Cube where
  bits : Nat
  mask : Nat
deriving DecidableEq

instance : Inhabited Cube := ⟨⟨0, 0⟩⟩

/-- kitty `cube::add_literal(var, polarity)`: set the mask bit of variable
`l` and set or clear its polarity bit (32-bit word semantics). -/
def Cube.add_literal (c : Cube) (l : Nat) (polarity : Bool) : Cube :=
  { bits := if polarity then c.bits ||| 2 ^ l else c.bits &&& ((2 ^ 32 - 1) ^^^ 2 ^ l),
    mask := c.mask ||| 2 ^ l }

/-- Modelled from the spec (§3): a cube covers an assignment (a row index,
read as the binary encoding of the `n` input bits) iff every non-don't-care
literal matches the corresponding assignment bit. -/
def Cube.covers (c : Cube) (n : Nat) (a : Nat) : Bool :=
  (List.range n).all fun l => !c.mask.testBit l || (c.bits.testBit l == a.testBit l)

/-- An ESOP: an ordered sequence of cubes (`esop::esop_t`). -/
abbrev esop_t := List Cube

/-- A sequence of ESOPs (`esop::esops_t`). -/
abbrev esops_t := List esop_t

/-- Modelled from the spec (§3): the value of an ESOP at an assignment is the
XOR over its cubes of "cube covers assignment". -/
def esopEval (E : esop_t) (n : Nat) (a : Nat) : Bool :=
  E.foldl (fun b c => xor b (c.covers n a)) false

/-- A CNF clause: a list of DIMACS-signed literals (`±` variable id). -/
abbrev Clause := List Int

/-- Modelled from the spec (§3): the accumulating constraint set
(`sat::constraints`), an ordered collection of plain clauses plus an ordered
collection of XOR constraints (variable list plus target parity). -/
structure constraints where
  clauses : List Clause
  xors : List (List Int × Bool)
deriving DecidableEq

/-- `sat::constraints::add_clause`. -/
def addClause (C : constraints) (cl : Clause) : constraints :=
  { C with clauses := C.clauses ++ [cl] }

/-- `sat::constraints::add_xor_clause`. -/
def addXor (C : constraints) (ls : List Int) (target : Bool) : constraints :=
  { C with xors := C.xors ++ [(ls, target)] }

/-- A variable assignment returned by the solver, indexed by variable id
(the source reads `result.model` at positional offset `i`, which per the
solver interface holds the value of variable id `i + 1`). -/
abbrev Model := Nat → Bool

/-- Positive literal of a variable id. -/
def posLit (v : Nat) : Int := (v : Int)

/-- Negative literal of a variable id. -/
def negLit (v : Nat) : Int := -(v : Int)

/-- Value of a signed literal under a model (literal `0` is not a DIMACS
literal; it is read as constantly false). -/
def evalLit (mdl : Model) (lit : Int) : Bool :=
  if 0 < lit then mdl lit.toNat
  else if lit < 0 then !mdl (-lit).toNat
  else false

/-- A clause is satisfied iff some literal evaluates to true. -/
def satClause (mdl : Model) (cl : Clause) : Bool :=
  cl.any (evalLit mdl)

/-- Parity of a list of literals under a model. -/
def evalXorList (mdl : Model) (ls : List Int) : Bool :=
  ls.foldl (fun b l => xor b (evalLit mdl l)) false

/-- An XOR constraint is satisfied iff the parity of its literals equals the
target. -/
def satXor (mdl : Model) (x : List Int × Bool) : Bool :=
  evalXorList mdl x.1 == x.2

/-- A model satisfies a constraint set iff it satisfies every clause and
every XOR constraint. -/
def satC (mdl : Model) (C : constraints) : Bool :=
  C.clauses.all (satClause mdl) && C.xors.all (satXor mdl)

/-- Variable id of the positive-indicator `p(j,l)`: `1 + num_vars*j + l`. -/
def pVar (n j l : Nat) : Nat := 1 + n * j + l

/-- Variable id of the negative-indicator `q(j,l)`:
`1 + num_vars*k + num_vars*j + l`. -/
def qVar (n k j l : Nat) : Nat := 1 + n * k + n * j + l

/-- Variable id of the coverage variable `z(j)` of the row with sample
counter `s`: `1 + 2*num_vars*k + s*k + j` (the allocation the source asserts
for its incrementing `sid`). -/
def zVar (n k s j : Nat) : Nat := 1 + 2 * n * k + s * k + j

/-- The loop bound `1 << num_vars`, computed in 32-bit machine arithmetic as
in the source (the shift overflows for `num_vars = 32`; two's-complement
wraparound semantics). -/
def rowBound (n : Nat) : Nat := (1 <<< n) % 2 ^ 32

/-- The row enumeration of the do-while loop over `minterm._bits`: the body
runs on the current 32-bit counter value, the counter is incremented
(mod `2^32`), and the loop continues while it is `< rowBound n` (the
comparison the source performs after the usual unsigned conversions). -/
def rowLoop (bound : Nat) : Nat → Nat → List Nat
  | 0, _ => []
  | fuel + 1, bits =>
    bits :: (if (bits + 1) % 2 ^ 32 < bound then rowLoop bound fuel ((bits + 1) % 2 ^ 32) else [])

/-- The sequence of row indices visited by the encoding loop. -/
def rowList (n : Nat) : List Nat := rowLoop (rowBound n) (2 ^ 32) 0

/-- Constraints added for one table row with index `m` and sample counter
`s`: first the unit-implication ("positive") clauses, one per term `j` and
variable `l`; then the converse clause, one per term `j`; then the XOR
constraint over the row's `z` variables, mirroring the three loops of the
source. -/
def encodeRowClauses (binary : List Char) (n k s m : Nat) (C : constraints) : constraints :=
  let C1 := (List.range k).foldl (fun C j =>
    (List.range n).foldl (fun C l =>
      if m.testBit l then
        addClause C [negLit (zVar n k s j), negLit (qVar n k j l)]
      else
        addClause C [negLit (zVar n k s j), negLit (pVar n j l)]) C) C
  let C2 := (List.range k).foldl (fun C j =>
    addClause C (posLit (zVar n k s j) ::
      (List.range n).foldl (fun cl l =>
        cl ++ [if m.testBit l then posLit (qVar n k j l) else posLit (pVar n j l)]) [])) C1
  addXor C2 ((List.range k).foldl (fun zs j => zs ++ [posLit (zVar n k s j)]) [])
    (binary.getD m ' ' == '1')

/-- The encoding loop over the visited rows, skipping don't-care rows and
threading the sample counter `s` exactly as the source's do-while body. -/
def encodeLoop (binary : List Char) (n k : Nat) : List Nat → Nat → constraints → constraints
  | [], _, C => C
  | m :: rest, s, C =>
    if binary.getD m ' ' ≠ '0' ∧ binary.getD m ' ' ≠ '1' then
      encodeLoop binary n k rest s C
    else
      encodeLoop binary n k rest (s + 1) (encodeRowClauses binary n k s m C)

/-- The complete constraint set built for candidate term count `k`. -/
def encodeRows (binary : List Char) (n k : Nat) : constraints :=
  encodeLoop binary n k (rowList n) 0 ⟨[], []⟩

/-- The recognized configuration options with their defaults. -/
structure Config where
  maximum_cubes : Nat := 10
  dump_cnf : Bool := false
  one_esop : Bool := true

/-- One step of the extraction loop over variables `l` for term `j`: reads
`p(j,l)` and `q(j,l)` from the model, sets the cancel flag when both hold,
otherwise adds the corresponding literal (don't-care when both are false). -/
def extractStep (n k : Nat) (mdl : Model) (j : Nat) (acc : Cube × Bool) (l : Nat) : Cube × Bool :=
  let pv := mdl (pVar n j l)
  let qv := mdl (qVar n k j l)
  if pv && qv then (acc.1, true)
  else if pv then (acc.1.add_literal l true, acc.2)
  else if qv then (acc.1.add_literal l false, acc.2)
  else acc

/-- Decoding of term `j` from a model: `none` when the term is void
(cancelled), otherwise the decoded cube. -/
def extractCube (n k : Nat) (mdl : Model) (j : Nat) : Option Cube :=
  let r := (List.range n).foldl (extractStep n k mdl j) (⟨0, 0⟩, false)
  if r.2 then none else some r.1

/-- The extraction loop over terms `j ∈ [0,k)`: append each decoded cube,
skipping cancelled terms. -/
def extractEsop (n k : Nat) (mdl : Model) : esop_t :=
  (List.range k).foldl (fun es j =>
    match extractCube n k mdl j with
    | none => es
    | some c => es ++ [c]) []

/-- Modelled from the spec (§4.3): `cube_weight_compare` (from the cube
utilities, not part of the visible source) orders cubes by a deterministic
weight; the weight is modelled as the literal count of the cube. -/
def cubeWeight (n : Nat) (c : Cube) : Nat :=
  ((List.range n).filter fun l => c.mask.testBit l).length

/-- Insertion of a cube into a weight-sorted list. -/
def insertCube (n : Nat) (c : Cube) : esop_t → esop_t
  | [] => [c]
  | d :: t => if cubeWeight n c ≤ cubeWeight n d then c :: d :: t else d :: insertCube n c t

/-- Modelled from the spec (§4.3): sorting of the extracted ESOP by cube
weight (`std::sort` with `cube_weight_compare`); only the resulting
reordering matters to the claims. -/
def sortCubes (n : Nat) (E : esop_t) : esop_t :=
  E.foldl (fun acc c => insertCube n c acc) []

/-- The blocking clause for one permutation `vs` of the term indices: the
negation of the model's `p`/`q` assignment with the pattern of slot `j`
placed at slot `vs[j]`, literals pushed in the source's interleaved order. -/
def blockingClause (n k : Nat) (mdl : Model) (vs : List Nat) : Clause :=
  (List.range vs.length).foldl (fun cl j =>
    (List.range n).foldl (fun cl l =>
      let pv := mdl (pVar n j l)
      let qv := mdl (qVar n k j l)
      cl ++ [if pv then negLit (pVar n (vs.getD j 0) l) else posLit (pVar n (vs.getD j 0) l),
             if qv then negLit (qVar n k (vs.getD j 0) l) else posLit (qVar n k (vs.getD j 0) l)])
      cl) []

/-- Addition of one blocking clause per permutation of the `k` term indices
(the source enumerates them with `std::next_permutation`; only the set of
added clauses matters to the claims). -/
def addBlocking (n k : Nat) (mdl : Model) (C : constraints) : constraints :=
  ((List.range k).permutations).foldl (fun C vs => addClause C (blockingClause n k mdl vs)) C

/-- Outcome of the solve-extract-block loop for one `k`: either an immediate
function return with a result, or exhaustion (solver reported
unsatisfiable) with the accumulated enumeration list. -/
inductive InnerRes where
  | done (res : esops_t) : InnerRes
  | exhausted (esops : esops_t) : InnerRes
deriving DecidableEq

/-- The solve-extract-block loop for one `k`, with explicit fuel (`none`
models the loop failing to terminate within the given number of
iterations). -/
def innerLoop (solve : constraints → Option Model) (n k : Nat) (one_esop : Bool) :
    Nat → constraints → esops_t → Option InnerRes
  | 0, _, _ => none
  | fuel + 1, C, esops =>
    match solve C with
    | none => some (InnerRes.exhausted esops)
    | some mdl =>
      let esop := extractEsop n k mdl
      if esop = [] then some (InnerRes.done [esop])
      else if one_esop then some (InnerRes.done [esop])
      else
        innerLoop solve n k one_esop fuel (addBlocking n k mdl C)
          (esops ++ [sortCubes n esop])

/-- Fuel sufficient for the inner loop: one more than the number of distinct
assignments to the `2*n*k` candidate variables. -/
def innerFuel (n k : Nat) : Nat := 2 ^ (2 * n * k) + 1

/-- Result of the whole synthesis: precondition violation (the source's
assertions), inner-loop non-termination, or the returned ESOP sequence. -/
inductive SynthResult where
  | rejected : SynthResult
  | fuelOut : SynthResult
  | ok (esops : esops_t) : SynthResult
deriving DecidableEq

/-- The outer loop over the candidate term counts: run the inner loop for
each `k` in turn; an immediate return ends the function, otherwise stop as
soon as the enumeration list is non-empty, else move to the next `k`. -/
def kLoopAux (solve : constraints → Option Model) (binary : List Char) (n : Nat)
    (one_esop : Bool) : List Nat → esops_t → SynthResult
  | [], esops => SynthResult.ok esops
  | k :: rest, esops =>
    match innerLoop solve n k one_esop (innerFuel n k) (encodeRows binary n k) esops with
    | none => SynthResult.fuelOut
    | some (InnerRes.done res) => SynthResult.ok res
    | some (InnerRes.exhausted es) =>
      if es.length > 0 then SynthResult.ok es
      else kLoopAux solve binary n one_esop rest es

/-- The synthesis driver `esop::exact_synthesis_from_binary_string`,
parameterized by the solver oracle.  `num_vars` is the floor base-2
logarithm of the table length; the two assertions reject a length that is
not exactly `2^num_vars` or more than 32 variables, before any encoding. -/
def exact_synthesis_from_binary_string (solve : constraints → Option Model)
    (binary : List Char) (config : Config) : SynthResult :=
  let num_vars := Nat.log2 binary.length
  if binary.length = 2 ^ num_vars ∧ num_vars ≤ 32 then
    kLoopAux solve binary num_vars config.one_esop
      ((List.range config.maximum_cubes).map (· + 1)) []
  else
    SynthResult.rejected

/-! ### Specification-side semantic notions -/

/-- An ESOP agrees with the table at row `m`: a defined symbol forces the
ESOP's value there; any other symbol (don't-care) leaves it free. -/
def AgreesAt (binary : List Char) (n : Nat) (E : esop_t) (m : Nat) : Prop :=
  (binary.getD m ' ' = '1' → esopEval E n m = true) ∧
  (binary.getD m ' ' = '0' → esopEval E n m = false)

instance (binary : List Char) (n : Nat) (E : esop_t) (m : Nat) :
    Decidable (AgreesAt binary n E m) := by
  unfold AgreesAt; infer_instance

/-- An ESOP computes the table: it agrees at every one of the `2^n` rows. -/
def AgreesTable (binary : List Char) (n : Nat) (E : esop_t) : Prop :=
  ∀ m < 2 ^ n, AgreesAt binary n E m

/-- An ESOP agrees with the table at every row actually visited by the
encoding loop. -/
def AgreesOnRows (binary : List Char) (n : Nat) (E : esop_t) : Prop :=
  ∀ m ∈ rowList n, AgreesAt binary n E m

/-- Soundness of the solver oracle: every returned assignment satisfies the
constraint set it was given. -/
def SolverSound (solve : constraints → Option Model) : Prop :=
  ∀ C mdl, solve C = some mdl → satC mdl C = true

/-- Completeness of the solver oracle: `none` is answered only on
unsatisfiable constraint sets. -/
def SolverComplete (solve : constraints → Option Model) : Prop :=
  ∀ C, solve C = none → ∀ mdl, satC mdl C = false

/-! ### A concrete reference solver (used by witnesses and counterexamples) -/

/-- Largest variable id mentioned in a clause. -/
def maxVarClause (cl : Clause) : Nat :=
  cl.foldl (fun a lit => max a lit.natAbs) 0

/-- Largest variable id mentioned in a constraint set. -/
def maxVar (C : constraints) : Nat :=
  max (C.clauses.foldl (fun a cl => max a (maxVarClause cl)) 0)
    (C.xors.foldl (fun a x => max a (maxVarClause x.1)) 0)

/-- The model in which variable id `v` takes the bit `v-1` of `bits`. -/
def modelOfBits (bits : Nat) : Model := fun v => bits.testBit (v - 1)

/-- Brute-force SAT solver: try every assignment to the mentioned
variables in increasing numeric order. -/
def bruteSolve (C : constraints) : Option Model :=
  ((List.range (2 ^ maxVar C)).find? fun bits => satC (modelOfBits bits) C).map modelOfBits

/-! ### Derived descriptions used to state the claims -/

/-- Pairing of a list with consecutive counters starting at `s`. -/
def withIdx {α : Type} : Nat → List α → List (Nat × α)
  | _, [] => []
  | s, a :: t => (s, a) :: withIdx (s + 1) t

/-- Whether a table symbol constrains its row. -/
def definedSym (c : Char) : Bool := c == '0' || c == '1'

/-- The constrained rows in visiting order, paired with their sample
counters. -/
def definedRows (binary : List Char) (n : Nat) : List (Nat × Nat) :=
  withIdx 0 ((rowList n).filter fun m => definedSym (binary.getD m ' '))

/-- The row index carrying sample counter `s`. -/
def rowOfSample (binary : List Char) (n s : Nat) : Nat :=
  ((rowList n).filter fun m => definedSym (binary.getD m ' ')).getD s 0

/-- The claim's description of the unit-implication clauses of one row:
for each term `j` and variable `l`, `{¬z(j), ¬q(j,l)}` when the row's bit
`l` is 1 and `{¬z(j), ¬p(j,l)}` when it is 0. -/
def specPosClauses (n k s m : Nat) : List Clause :=
  (List.range k).flatMap fun j =>
    (List.range n).map fun l =>
      if m.testBit l then [negLit (zVar n k s j), negLit (qVar n k j l)]
      else [negLit (zVar n k s j), negLit (pVar n j l)]

/-- The claim's description of the converse clause of term `j` of one row:
`{z(j)} ∪ {q(j,l) : bit l is 1} ∪ {p(j,l) : bit l is 0}`. -/
def specConvClause (n k s m j : Nat) : Clause :=
  posLit (zVar n k s j) ::
    ((List.range n).map fun l =>
      if m.testBit l then posLit (qVar n k j l) else posLit (pVar n j l))

/-- The claim's description of the XOR constraint of one row: the row's `z`
variables with the target parity. -/
def specXorRow (n k s : Nat) (target : Bool) : List Int × Bool :=
  ((List.range k).map fun j => posLit (zVar n k s j), target)

/-- Positive-indicator value of a cube at variable `l`. -/
def cubeP (c : Cube) (l : Nat) : Bool := c.mask.testBit l && c.bits.testBit l

/-- Negative-indicator value of a cube at variable `l`. -/
def cubeQ (c : Cube) (l : Nat) : Bool := c.mask.testBit l && !c.bits.testBit l

/-- The satisfying assignment that realizes a given ESOP `E` of at most `k`
cubes in the `k`-term encoding: slots beyond `E` are void (`p = q = 1`
everywhere), slot `j < |E|` carries cube `j`'s indicators, and each coverage
variable takes the value "cube `j` covers its row". -/
def paddedModel (binary : List Char) (n k : Nat) (E : esop_t) : Model := fun v =>
  if v = 0 then false
  else if v ≤ n * k then
    let j := (v - 1) / n
    if j < E.length then cubeP (E.getD j default) ((v - 1) % n) else true
  else if v ≤ 2 * n * k then
    let j := (v - 1 - n * k) / n
    if j < E.length then cubeQ (E.getD j default) ((v - 1 - n * k) % n) else true
  else
    let j := (v - 1 - 2 * n * k) % k
    if j < E.length then
      (E.getD j default).covers n (rowOfSample binary n ((v - 1 - 2 * n * k) / k))
    else false

/-- The decoded cube of slot `j`, read off disregarding voidness. -/
def slotCube (n k : Nat) (mdl : Model) (j : Nat) : Cube :=
  ((List.range n).foldl (extractStep n k mdl j) (⟨0, 0⟩, false)).1

/-- Whether term `j`'s literal pattern is compatible with row `m` under a
model: no disqualifying indicator variable is set. -/
def compat (n k : Nat) (mdl : Model) (j m : Nat) : Bool :=
  (List.range n).all fun l => !(if m.testBit l then mdl (qVar n k j l) else mdl (pVar n j l))

/-- Growth of a constraint set during one inner loop: clauses are only
added, XOR constraints untouched. -/
def ClausesExtend (C C' : constraints) : Prop :=
  (∀ cl ∈ C.clauses, cl ∈ C'.clauses) ∧ C'.xors = C.xors

/-- The model determined by a vector of values for the variable ids
`1 .. d` (all other ids false). -/
def modelOfVec (d : Nat) (β : Fin d → Bool) : Model := fun v =>
  if h : 1 ≤ v ∧ v ≤ d then β ⟨v - 1, by omega⟩ else false

/-- The restriction of a model to the `2nk` candidate (p/q) variable ids. -/
def pqRestrict (n k : Nat) (mdl : Model) : Fin (2 * n * k) → Bool :=
  fun i => mdl (i.val + 1)

/-- Number of p/q assignments whose identity-permutation blocking clause is
not yet part of the constraint set; the inner loop's termination measure. -/
def freeCount (n k : Nat) (C : constraints) : Nat :=
  (Finset.univ.filter (fun β : Fin (2 * n * k) → Bool =>
    blockingClause n k (modelOfVec (2 * n * k) β) (List.range k) ∉ C.clauses)).card

/-- Satisfiability of the `k`-term instance. -/
def InstSat (binary : List Char) (n k : Nat) : Prop :=
  ∃ mdl, satC mdl (encodeRows binary n k) = true

/-- All candidate term counts in `[1, k)` give unsatisfiable instances. -/
def UnsatBelow (binary : List Char) (n k : Nat) : Prop :=
  ∀ j, 1 ≤ j → j < k → ¬ InstSat binary n j

/-! ## Basic lemmas about satisfaction and the helper folds -/

theorem satC_iff (mdl : Model) (C : constraints) :
    satC mdl C = true ↔
      (∀ cl ∈ C.clauses, satClause mdl cl = true) ∧ (∀ x ∈ C.xors, satXor mdl x = true) := by
  simp [satC, List.all_eq_true]

theorem evalLit_posLit (mdl : Model) (v : Nat) (h : 0 < v) :
    evalLit mdl (posLit v) = mdl v := by
  unfold evalLit posLit
  rw [if_pos (show (0 : Int) < (v : Int) by omega)]
  simp

theorem evalLit_negLit (mdl : Model) (v : Nat) (h : 0 < v) :
    evalLit mdl (negLit v) = !mdl v := by
  unfold evalLit negLit
  rw [if_neg (show ¬ ((0 : Int) < -(v : Int)) by omega),
    if_pos (show -(v : Int) < 0 by omega)]
  simp

theorem pVar_pos (n j l : Nat) : 0 < pVar n j l := by simp [pVar]
theorem qVar_pos (n k j l : Nat) : 0 < qVar n k j l := by simp [qVar]
theorem zVar_pos (n k s j : Nat) : 0 < zVar n k s j := by simp [zVar]

theorem foldl_append_singleton {α β : Type} (f : α → β) :
    ∀ (L : List α) (acc : List β), L.foldl (fun cl x => cl ++ [f x]) acc = acc ++ L.map f := by
  intro L
  induction L with
  | nil => simp
  | cons a t ih => intro acc; simp [ih]

theorem foldl_extendC {α : Type} (F : constraints → α → constraints) (gf : α → List Clause)
    (h : ∀ C x, F C x = ⟨C.clauses ++ gf x, C.xors⟩) :
    ∀ (L : List α) (C : constraints), L.foldl F C = ⟨C.clauses ++ L.flatMap gf, C.xors⟩ := by
  intro L
  induction L with
  | nil => intro C; simp
  | cons a t ih => intro C; rw [List.foldl_cons, h, ih]; simp

theorem satClause_of_extend (mdl : Model) (C C' : constraints) (h : ClausesExtend C C')
    (hs : satC mdl C' = true) : satC mdl C = true := by
  rcases (satC_iff mdl C').1 hs with ⟨h1, h2⟩
  exact (satC_iff mdl C).2 ⟨fun cl hcl => h1 cl (h.1 cl hcl), fun x hx => h2 x (h.2 ▸ hx)⟩

theorem ClausesExtend.refl (C : constraints) : ClausesExtend C C :=
  ⟨fun _ h => h, rfl⟩

theorem ClausesExtend.trans {A B C : constraints} (h1 : ClausesExtend A B)
    (h2 : ClausesExtend B C) : ClausesExtend A C :=
  ⟨fun cl hcl => h2.1 cl (h1.1 cl hcl), h2.2.trans h1.2⟩

theorem clausesExtend_addClause (C : constraints) (cl : Clause) :
    ClausesExtend C (addClause C cl) :=
  ⟨fun c hc => by simp [addClause]; exact Or.inl hc, rfl⟩

theorem clausesExtend_addBlocking (n k : Nat) (mdl : Model) (C : constraints) :
    ClausesExtend C (addBlocking n k mdl C) := by
  rw [addBlocking]
  generalize (List.range k).permutations = P
  induction P generalizing C with
  | nil => exact ClausesExtend.refl C
  | cons vs t ih =>
    rw [List.foldl_cons]
    exact (clausesExtend_addClause C _).trans (ih _)

/-! ## The row enumeration loop -/

theorem rowLoop_eq_range' :
    ∀ (bound fuel b : Nat), bound < 2 ^ 32 → b < bound → bound - b ≤ fuel →
      rowLoop bound fuel b = List.range' b (bound - b) := by
  intro bound fuel
  induction fuel with
  | zero => intro b h1 h2 h3; omega
  | succ f ih =>
    intro b h1 h2 h3
    rw [rowLoop]
    have hm : (b + 1) % 2 ^ 32 = b + 1 := Nat.mod_eq_of_lt (by omega)
    rw [hm]
    by_cases hb : b + 1 < bound
    · rw [if_pos hb, ih (b + 1) h1 hb (by omega)]
      have h4 : bound - b = (bound - (b + 1)) + 1 := by omega
      rw [h4, List.range'_succ]
    · rw [if_neg hb]
      have h4 : bound - b = 1 := by omega
      rw [h4, List.range'_one]

theorem rowBound_eq (n : Nat) (hn : n ≤ 31) : rowBound n = 2 ^ n := by
  rw [rowBound, Nat.shiftLeft_eq, one_mul, Nat.mod_eq_of_lt]
  exact Nat.pow_lt_pow_right (by norm_num) (by omega)

theorem rowList_eq_range (n : Nat) (hn : n ≤ 31) : rowList n = List.range (2 ^ n) := by
  have hb : rowBound n = 2 ^ n := rowBound_eq n hn
  have h1 : 2 ^ n < 2 ^ 32 := Nat.pow_lt_pow_right (by norm_num) (by omega)
  have h2 : 0 < 2 ^ n := Nat.pos_pow_of_pos n (by norm_num)
  rw [rowList, hb, rowLoop_eq_range' (2 ^ n) (2 ^ 32) 0 h1 h2 (by omega)]
  simp [List.range_eq_range']

theorem rowList_32_eq : rowList 32 = [0] := by
  have hb : rowBound 32 = 0 := by norm_num [rowBound, Nat.shiftLeft_eq]
  rw [rowList, hb]
  have h32 : (2 : Nat) ^ 32 = 4294967295 + 1 := by norm_num
  rw [h32, rowLoop]
  norm_num

/-! ## Exact shape of the encoder's constraint set -/

theorem ite_addClause (c : Prop) [inst : Decidable c] (C : constraints) (a b : Clause) :
    (if c then addClause C a else addClause C b) = addClause C (if c then a else b) := by
  split <;> rfl

theorem foldl_addClause_map {α : Type} (f : α → Clause) :
    ∀ (L : List α) (C : constraints),
      L.foldl (fun C x => addClause C (f x)) C = ⟨C.clauses ++ L.map f, C.xors⟩ := by
  intro L
  induction L with
  | nil => intro C; simp
  | cons a t ih => intro C; rw [List.foldl_cons, ih]; simp [addClause]

theorem encodeRowClauses_eq (binary : List Char) (n k s m : Nat) (C : constraints) :
    encodeRowClauses binary n k s m C =
      ⟨C.clauses ++ (specPosClauses n k s m ++ (List.range k).map (specConvClause n k s m)),
        C.xors ++ [specXorRow n k s (binary.getD m ' ' == '1')]⟩ := by
  rw [encodeRowClauses]
  simp only [ite_addClause]
  have hinner : ∀ (C1 : constraints) (j : Nat),
      ((List.range n).foldl (fun C l =>
        addClause C (if m.testBit l then [negLit (zVar n k s j), negLit (qVar n k j l)]
          else [negLit (zVar n k s j), negLit (pVar n j l)])) C1) =
      ⟨C1.clauses ++ (List.range n).map (fun l =>
          if m.testBit l then [negLit (zVar n k s j), negLit (qVar n k j l)]
          else [negLit (zVar n k s j), negLit (pVar n j l)]), C1.xors⟩ :=
    fun C1 j => foldl_addClause_map _ (List.range n) C1
  rw [foldl_extendC _ (fun j => (List.range n).map (fun l =>
      if m.testBit l then [negLit (zVar n k s j), negLit (qVar n k j l)]
      else [negLit (zVar n k s j), negLit (pVar n j l)])) hinner]
  simp only [foldl_append_singleton, List.nil_append]
  rw [foldl_addClause_map (fun j => posLit (zVar n k s j) ::
    (List.range n).map fun l =>
      if m.testBit l then posLit (qVar n k j l) else posLit (pVar n j l))]
  rw [addXor]
  simp [specPosClauses, specXorRow, specConvClause, List.append_assoc]

theorem definedSym_iff (c : Char) : definedSym c = true ↔ (c = '0' ∨ c = '1') := by
  simp [definedSym]

theorem encodeLoop_eq (binary : List Char) (n k : Nat) :
    ∀ (rows : List Nat) (s : Nat) (C : constraints),
      encodeLoop binary n k rows s C =
        ⟨C.clauses ++ (withIdx s (rows.filter fun m => definedSym (binary.getD m ' '))).flatMap
            (fun sm => specPosClauses n k sm.1 sm.2 ++
              (List.range k).map (specConvClause n k sm.1 sm.2)),
          C.xors ++ (withIdx s (rows.filter fun m => definedSym (binary.getD m ' '))).map
            (fun sm => specXorRow n k sm.1 (binary.getD sm.2 ' ' == '1'))⟩ := by
  intro rows
  induction rows with
  | nil => intro s C; simp [encodeLoop, withIdx]
  | cons m rest ih =>
    intro s C
    rw [encodeLoop]
    by_cases hd : definedSym (binary.getD m ' ') = true
    · have hd2 : ¬ (binary.getD m ' ' ≠ '0' ∧ binary.getD m ' ' ≠ '1') := by
        rcases (definedSym_iff _).1 hd with h | h
        · exact fun hc => hc.1 h
        · exact fun hc => hc.2 h
      rw [if_neg hd2, ih, encodeRowClauses_eq, List.filter_cons, if_pos hd]
      simp only [withIdx, List.flatMap_cons, List.map_cons]
      simp [List.append_assoc]
    · have hd2 : binary.getD m ' ' ≠ '0' ∧ binary.getD m ' ' ≠ '1' := by
        constructor
        · exact fun h => hd ((definedSym_iff _).2 (Or.inl h))
        · exact fun h => hd ((definedSym_iff _).2 (Or.inr h))
      rw [if_pos hd2, ih, List.filter_cons, if_neg hd]

theorem encodeRows_eq (binary : List Char) (n k : Nat) :
    encodeRows binary n k =
      ⟨(definedRows binary n).flatMap (fun sm =>
          specPosClauses n k sm.1 sm.2 ++ (List.range k).map (specConvClause n k sm.1 sm.2)),
        (definedRows binary n).map
          (fun sm => specXorRow n k sm.1 (binary.getD sm.2 ' ' == '1'))⟩ := by
  rw [encodeRows, encodeLoop_eq, definedRows]
  simp

/-! ## The extraction step -/

theorem add_literal_mask (c : Cube) (l : Nat) (p : Bool) :
    (c.add_literal l p).mask = c.mask ||| 2 ^ l := rfl

theorem add_literal_bits_true (c : Cube) (l : Nat) :
    (c.add_literal l true).bits = c.bits ||| 2 ^ l := rfl

theorem add_literal_bits_false (c : Cube) (l : Nat) :
    (c.add_literal l false).bits = c.bits &&& ((2 ^ 32 - 1) ^^^ 2 ^ l) := rfl

theorem extract_fold_spec (n k : Nat) (hn : n ≤ 32) (mdl : Model) (j : Nat) :
    ∀ b, b ≤ n →
      (((List.range b).foldl (extractStep n k mdl j) (⟨0, 0⟩, false)).2 =
        ((List.range b).any fun l => mdl (pVar n j l) && mdl (qVar n k j l))) ∧
      (∀ l' : Nat,
        ((List.range b).foldl (extractStep n k mdl j) (⟨0, 0⟩, false)).1.mask.testBit l' =
          (decide (l' < b) && xor (mdl (pVar n j l')) (mdl (qVar n k j l'))) ∧
        ((List.range b).foldl (extractStep n k mdl j) (⟨0, 0⟩, false)).1.bits.testBit l' =
          (decide (l' < b) && (mdl (pVar n j l') && !mdl (qVar n k j l')))) := by
  intro b
  induction b with
  | zero => intro _; simp
  | succ b ih =>
    intro hb
    obtain ⟨ih1, ih2⟩ := ih (by omega)
    rw [List.range_succ, List.foldl_append, List.foldl_cons, List.foldl_nil]
    set r := (List.range b).foldl (extractStep n k mdl j) (⟨0, 0⟩, false) with hr
    have hb31 : b < 32 := by omega
    have hdec : ∀ l' : Nat, l' ≠ b → decide (l' < b + 1) = decide (l' < b) := by
      intro l' hne
      rcases Nat.lt_or_ge l' b with h2 | h2
      · simp [h2, Nat.lt_succ_of_lt h2]
      · have h3 : ¬ l' < b := by omega
        have h4 : ¬ l' < b + 1 := by omega
        simp [h3, h4]
    by_cases hp : mdl (pVar n j b) = true <;> by_cases hq : mdl (qVar n k j b) = true
    · -- both set: cancel flag, cube untouched
      have hstep : extractStep n k mdl j r b = (r.1, true) := by
        simp [extractStep, hp, hq]
      rw [hstep]
      refine ⟨by simp [List.any_append, ih1, hp, hq], fun l' => ?_⟩
      obtain ⟨ihm, ihb⟩ := ih2 l'
      by_cases he : l' = b
      · subst he
        rw [ihm, ihb]
        simp [hp, hq]
      · rw [ihm, ihb, hdec l' he]
        exact ⟨rfl, rfl⟩
    · -- p only: positive literal added
      have hstep : extractStep n k mdl j r b = (r.1.add_literal b true, r.2) := by
        simp [extractStep, hp, hq]
      rw [hstep]
      refine ⟨by simp [List.any_append, ih1, hp, hq], fun l' => ?_⟩
      obtain ⟨ihm, ihb⟩ := ih2 l'
      rw [add_literal_mask, add_literal_bits_true, Nat.testBit_or, Nat.testBit_or,
        ihm, ihb, Nat.testBit_two_pow]
      by_cases he : l' = b
      · subst he
        simp [hp, hq]
      · have hne : ¬ b = l' := fun h => he h.symm
        rw [hdec l' he]
        simp [hne]
    · -- q only: negative literal added
      have hstep : extractStep n k mdl j r b = (r.1.add_literal b false, r.2) := by
        simp [extractStep, hp, hq]
      rw [hstep]
      refine ⟨by simp [List.any_append, ih1, hp, hq], fun l' => ?_⟩
      obtain ⟨ihm, ihb⟩ := ih2 l'
      have hmaskbit : ((2 ^ 32 - 1) ^^^ 2 ^ b).testBit l' =
          (decide (l' < 32) ^^ decide (b = l')) := by
        rw [Nat.testBit_xor, Nat.testBit_two_pow_sub_one, Nat.testBit_two_pow]
      rw [add_literal_mask, add_literal_bits_false, Nat.testBit_or, Nat.testBit_and,
        ihm, ihb, Nat.testBit_two_pow, hmaskbit]
      by_cases he : l' = b
      · subst he
        simp [hp, hq, hb31]
      · have hne : ¬ b = l' := fun h => he h.symm
        rw [hdec l' he]
        by_cases hl32 : l' < 32
        · simp [hne, hl32]
        · have h3 : ¬ l' < b := by omega
          simp [hne, hl32, h3]
    · -- neither set: untouched
      have hstep : extractStep n k mdl j r b = r := by
        simp [extractStep, hp, hq]
      rw [hstep]
      refine ⟨by simp [List.any_append, ih1, hp, hq], fun l' => ?_⟩
      obtain ⟨ihm, ihb⟩ := ih2 l'
      by_cases he : l' = b
      · subst he
        rw [ihm, ihb]
        simp [hp, hq]
      · rw [ihm, ihb, hdec l' he]
        exact ⟨rfl, rfl⟩

theorem extractCube_none_iff (n k : Nat) (hn : n ≤ 32) (mdl : Model) (j : Nat) :
    extractCube n k mdl j = none ↔
      ∃ l < n, mdl (pVar n j l) = true ∧ mdl (qVar n k j l) = true := by
  obtain ⟨h2, _⟩ := extract_fold_spec n k hn mdl j n (Nat.le_refl n)
  rw [extractCube]
  constructor
  · intro h
    by_cases hc : ((List.range n).foldl (extractStep n k mdl j) (⟨0, 0⟩, false)).2 = true
    · rw [h2] at hc
      simp only [List.any_eq_true, List.mem_range, Bool.and_eq_true] at hc
      exact hc
    · rw [if_neg hc] at h; exact absurd h (by simp)
  · intro ⟨l, hl, hp, hq⟩
    have hc : ((List.range n).foldl (extractStep n k mdl j) (⟨0, 0⟩, false)).2 = true := by
      rw [h2]
      simp only [List.any_eq_true, List.mem_range, Bool.and_eq_true]
      exact ⟨l, hl, hp, hq⟩
    rw [if_pos hc]

theorem extractCube_some_spec (n k : Nat) (hn : n ≤ 32) (mdl : Model) (j : Nat)
    (c : Cube) (h : extractCube n k mdl j = some c) :
    (∀ l < n, ¬(mdl (pVar n j l) = true ∧ mdl (qVar n k j l) = true)) ∧
      (∀ l' : Nat, c.mask.testBit l' =
          (decide (l' < n) && xor (mdl (pVar n j l')) (mdl (qVar n k j l'))) ∧
        c.bits.testBit l' =
          (decide (l' < n) && (mdl (pVar n j l') && !mdl (qVar n k j l')))) := by
  obtain ⟨h2, h3⟩ := extract_fold_spec n k hn mdl j n (Nat.le_refl n)
  rw [extractCube] at h
  by_cases hc : ((List.range n).foldl (extractStep n k mdl j) (⟨0, 0⟩, false)).2 = true
  · rw [if_pos hc] at h; exact absurd h (by simp)
  · rw [if_neg hc] at h
    have hcc : c = ((List.range n).foldl (extractStep n k mdl j) (⟨0, 0⟩, false)).1 := by
      cases h; rfl
    constructor
    · intro l hl ⟨hp, hq⟩
      apply hc
      rw [h2]
      simp only [List.any_eq_true, List.mem_range, Bool.and_eq_true]
      exact ⟨l, hl, hp, hq⟩
    · intro l'; rw [hcc]; exact h3 l'

theorem extractEsop_eq_filterMap (n k : Nat) (mdl : Model) :
    extractEsop n k mdl = (List.range k).filterMap (extractCube n k mdl) := by
  rw [extractEsop]
  have hgen : ∀ (L : List Nat) (acc : esop_t),
      (L.foldl (fun es j =>
        match extractCube n k mdl j with
        | none => es
        | some c => es ++ [c]) acc) = acc ++ L.filterMap (extractCube n k mdl) := by
    intro L
    induction L with
    | nil => intro acc; simp
    | cons a t ih =>
      intro acc
      rw [List.foldl_cons, List.filterMap_cons]
      cases hx : extractCube n k mdl a with
      | none => rw [ih]
      | some c => rw [ih]; simp
  rw [hgen]; simp

theorem all_congr_local {α : Type} (L : List α) (f g : α → Bool)
    (h : ∀ a ∈ L, f a = g a) : L.all f = L.all g := by
  induction L with
  | nil => rfl
  | cons a t ih =>
    simp only [List.all_cons, h a (by simp)]
    rw [ih fun x hx => h x (by simp [hx])]

theorem compat_eq_covers (n k : Nat) (hn : n ≤ 32) (mdl : Model) (j m : Nat) (c : Cube)
    (h : extractCube n k mdl j = some c) :
    compat n k mdl j m = c.covers n m := by
  obtain ⟨hnv, hbit⟩ := extractCube_some_spec n k hn mdl j c h
  rw [compat, Cube.covers]
  apply all_congr_local
  intro l hl
  have hln : l < n := List.mem_range.1 hl
  obtain ⟨hm, hb⟩ := hbit l
  have hnv' := hnv l hln
  cases hp : mdl (pVar n j l) <;> cases hq : mdl (qVar n k j l) <;>
    cases hbm : m.testBit l <;>
    simp_all [hm, hb, hln]

theorem compat_false_of_none (n k : Nat) (hn : n ≤ 32) (mdl : Model) (j m : Nat)
    (h : extractCube n k mdl j = none) :
    compat n k mdl j m = false := by
  obtain ⟨l, hl, hp, hq⟩ := (extractCube_none_iff n k hn mdl j).1 h
  rw [compat]
  simp only [List.all_eq_false]
  refine ⟨l, List.mem_range.2 hl, ?_⟩
  cases hbm : m.testBit l <;> simp [hbm, hp, hq]

/-! ## Row constraints force the coverage variables -/

theorem foldl_congr_local {α β : Type} (L : List α) (f g : β → α → β) (i : β)
    (h : ∀ b, ∀ a ∈ L, f b a = g b a) : L.foldl f i = L.foldl g i := by
  induction L generalizing i with
  | nil => rfl
  | cons a t ih =>
    rw [List.foldl_cons, List.foldl_cons, h i a (by simp)]
    exact ih _ fun b x hx => h b x (by simp [hx])

theorem z_forced (n k s m : Nat) (mdl : Model) (j : Nat) (hj : j < k)
    (hpos : ∀ cl ∈ specPosClauses n k s m, satClause mdl cl = true)
    (hconv : satClause mdl (specConvClause n k s m j) = true) :
    mdl (zVar n k s j) = compat n k mdl j m := by
  by_cases hc : compat n k mdl j m = true
  · rw [hc]
    rw [specConvClause, satClause, List.any_cons] at hconv
    have htail : (List.map (fun l =>
        if m.testBit l then posLit (qVar n k j l) else posLit (pVar n j l))
          (List.range n)).any (evalLit mdl) = false := by
      simp only [List.any_eq_false]
      intro lit hlit
      obtain ⟨l, hl, hliteq⟩ := List.mem_map.1 hlit
      rw [compat] at hc
      simp only [List.all_eq_true] at hc
      have hcl := hc l hl
      subst hliteq
      by_cases hbm : m.testBit l
      · rw [if_pos hbm]
        rw [if_pos hbm] at hcl
        rw [evalLit_posLit mdl _ (qVar_pos n k j l)]
        simpa using hcl
      · rw [if_neg hbm]
        rw [if_neg hbm] at hcl
        rw [evalLit_posLit mdl _ (pVar_pos n j l)]
        simpa using hcl
    rw [htail, Bool.or_false] at hconv
    rw [evalLit_posLit mdl _ (zVar_pos n k s j)] at hconv
    exact hconv
  · have hc' : compat n k mdl j m = false := by
      cases h : compat n k mdl j m
      · rfl
      · exact absurd h hc
    rw [hc']
    rw [compat] at hc'
    simp only [List.all_eq_false] at hc'
    obtain ⟨l, hl, hlit⟩ := hc'
    have hvtrue : (if m.testBit l then mdl (qVar n k j l) else mdl (pVar n j l)) = true := by
      by_cases hbm : m.testBit l <;> simp_all
    have hmem : (if m.testBit l then [negLit (zVar n k s j), negLit (qVar n k j l)]
        else [negLit (zVar n k s j), negLit (pVar n j l)]) ∈ specPosClauses n k s m := by
      rw [specPosClauses]
      refine List.mem_flatMap.2 ⟨j, List.mem_range.2 hj, ?_⟩
      exact List.mem_map.2 ⟨l, hl, rfl⟩
    have hsatcl := hpos _ hmem
    by_cases hbm : m.testBit l
    · rw [if_pos hbm] at hsatcl
      rw [if_pos hbm] at hvtrue
      rw [satClause] at hsatcl
      simp only [List.any_cons, List.any_nil, Bool.or_false] at hsatcl
      rw [evalLit_negLit mdl _ (zVar_pos n k s j), evalLit_negLit mdl _ (qVar_pos n k j l),
        hvtrue] at hsatcl
      simpa using hsatcl
    · rw [if_neg hbm] at hsatcl
      rw [if_neg hbm] at hvtrue
      rw [satClause] at hsatcl
      simp only [List.any_cons, List.any_nil, Bool.or_false] at hsatcl
      rw [evalLit_negLit mdl _ (zVar_pos n k s j), evalLit_negLit mdl _ (pVar_pos n j l),
        hvtrue] at hsatcl
      simpa using hsatcl

theorem satXor_spec (n k s : Nat) (mdl : Model) (target : Bool)
    (h : satXor mdl (specXorRow n k s target) = true) :
    ((List.range k).foldl (fun b j => xor b (mdl (zVar n k s j))) false) = target := by
  rw [satXor, specXorRow] at h
  simp only [beq_iff_eq] at h
  rw [evalXorList, List.foldl_map] at h
  rw [← h]
  exact foldl_congr_local _ _ _ _ fun b j hjm => by
    rw [evalLit_posLit mdl _ (zVar_pos n k s j)]

theorem esopEval_filterMap {α : Type} (f : α → Option Cube) (n m : Nat) :
    ∀ (L : List α) (b0 : Bool),
      (L.filterMap f).foldl (fun b c => xor b (c.covers n m)) b0 =
        L.foldl (fun b j => xor b (match f j with
          | some c => c.covers n m
          | none => false)) b0 := by
  intro L
  induction L with
  | nil => intro b0; simp
  | cons a t ih =>
    intro b0
    rw [List.filterMap_cons]
    cases hfa : f a with
    | none => rw [List.foldl_cons, hfa]; simp [ih]
    | some c => rw [List.foldl_cons, List.foldl_cons, hfa, ih]

theorem esopEval_extract (n k : Nat) (hn : n ≤ 32) (mdl : Model) (m : Nat) :
    esopEval (extractEsop n k mdl) n m =
      (List.range k).foldl (fun b j => xor b (compat n k mdl j m)) false := by
  rw [extractEsop_eq_filterMap, esopEval, esopEval_filterMap]
  exact foldl_congr_local _ _ _ _ fun b j hjm => by
    cases hx : extractCube n k mdl j with
    | none => rw [compat_false_of_none n k hn mdl j m hx]
    | some c => rw [compat_eq_covers n k hn mdl j m c hx]

/-! ## Membership facts for the numbered constrained rows -/

theorem withIdx_mem_of_mem {α : Type} (a : α) :
    ∀ (L : List α) (s0 : Nat), a ∈ L → ∃ i, (s0 + i, a) ∈ withIdx s0 L := by
  intro L
  induction L with
  | nil => intro s0 h; exact absurd h (by simp)
  | cons b t ih =>
    intro s0 h
    rcases List.mem_cons.1 h with h | h
    · exact ⟨0, by simp [withIdx, h]⟩
    · obtain ⟨i, hi⟩ := ih (s0 + 1) h
      exact ⟨i + 1, by rw [withIdx]; exact List.mem_cons.2 (Or.inr (by
        have : s0 + (i + 1) = s0 + 1 + i := by omega
        rw [this]; exact hi))⟩

theorem withIdx_getD {α : Type} (d : α) :
    ∀ (L : List α) (s0 i : Nat) (a : α), (i, a) ∈ withIdx s0 L →
      s0 ≤ i ∧ i - s0 < L.length ∧ L.getD (i - s0) d = a := by
  intro L
  induction L with
  | nil => intro s0 i a h; exact absurd h (by simp [withIdx])
  | cons b t ih =>
    intro s0 i a h
    rw [withIdx] at h
    rcases List.mem_cons.1 h with h | h
    · have h1 : i = s0 ∧ a = b := by
        constructor
        · exact congrArg Prod.fst h
        · exact congrArg Prod.snd h
      obtain ⟨h1, h2⟩ := h1
      subst h1; subst h2
      simp
    · obtain ⟨hle, hlt, hget⟩ := ih (s0 + 1) i a h
      refine ⟨by omega, by simp; omega, ?_⟩
      have h5 : i - s0 = (i - (s0 + 1)) + 1 := by omega
      rw [h5]
      simpa using hget

theorem definedRow_exists (binary : List Char) (n m : Nat) (hm : m ∈ rowList n)
    (hdef : definedSym (binary.getD m ' ') = true) :
    ∃ s, (s, m) ∈ definedRows binary n := by
  have hmem : m ∈ (rowList n).filter fun m => definedSym (binary.getD m ' ') :=
    List.mem_filter.2 ⟨hm, hdef⟩
  obtain ⟨i, hi⟩ := withIdx_mem_of_mem m _ 0 hmem
  exact ⟨0 + i, hi⟩

theorem definedRows_rowOfSample (binary : List Char) (n s m : Nat)
    (h : (s, m) ∈ definedRows binary n) : rowOfSample binary n s = m := by
  obtain ⟨_, _, hget⟩ := withIdx_getD 0 _ 0 s m h
  simpa [rowOfSample] using hget

/-! ## Soundness of decoding: extracted ESOPs satisfy the encoded rows -/

theorem decode_sound (binary : List Char) (n k : Nat) (hn : n ≤ 32) (mdl : Model)
    (hsat : satC mdl (encodeRows binary n k) = true) :
    AgreesOnRows binary n (extractEsop n k mdl) := by
  intro m hm
  by_cases hdef : definedSym (binary.getD m ' ') = true
  · obtain ⟨s, hs⟩ := definedRow_exists binary n m hm hdef
    rw [encodeRows_eq] at hsat
    obtain ⟨hcl, hxor⟩ := (satC_iff _ _).1 hsat
    have hposj : ∀ cl ∈ specPosClauses n k s m, satClause mdl cl = true := by
      intro cl hclm
      exact hcl cl (List.mem_flatMap.2 ⟨(s, m), hs, List.mem_append_left _ hclm⟩)
    have hconvj : ∀ j, j < k → satClause mdl (specConvClause n k s m j) = true := by
      intro j hj
      exact hcl _ (List.mem_flatMap.2 ⟨(s, m), hs,
        List.mem_append_right _ (List.mem_map.2 ⟨j, List.mem_range.2 hj, rfl⟩)⟩)
    have hxr : satXor mdl (specXorRow n k s (binary.getD m ' ' == '1')) = true :=
      hxor _ (List.mem_map.2 ⟨(s, m), hs, rfl⟩)
    have heval : esopEval (extractEsop n k mdl) n m = (binary.getD m ' ' == '1') := by
      have hcongr : (List.range k).foldl (fun b j => xor b (compat n k mdl j m)) false =
          (List.range k).foldl (fun b j => xor b (mdl (zVar n k s j))) false := by
        apply foldl_congr_local
        intro b j hjm
        rw [z_forced n k s m mdl j (List.mem_range.1 hjm) hposj
          (hconvj j (List.mem_range.1 hjm))]
      rw [esopEval_extract n k hn mdl m, hcongr]
      exact satXor_spec n k s mdl _ hxr
    constructor
    · intro h1; rw [heval, h1]; rfl
    · intro h0; rw [heval, h0]; rfl
  · constructor
    · intro h1; exact absurd ((definedSym_iff _).2 (Or.inr h1)) hdef
    · intro h0; exact absurd ((definedSym_iff _).2 (Or.inl h0)) hdef

/-! ## The padded model satisfies the instance (encoding completeness) -/

theorem withIdx_mem_snd {α : Type} :
    ∀ (L : List α) (s0 i : Nat) (a : α), (i, a) ∈ withIdx s0 L → a ∈ L := by
  intro L
  induction L with
  | nil => intro s0 i a h; exact absurd h (by simp [withIdx])
  | cons b t ih =>
    intro s0 i a h
    rw [withIdx] at h
    rcases List.mem_cons.1 h with h | h
    · exact List.mem_cons.2 (Or.inl (congrArg Prod.snd h))
    · exact List.mem_cons.2 (Or.inr (ih (s0 + 1) i a h))

theorem mem_definedRows_row (binary : List Char) (n s m : Nat)
    (h : (s, m) ∈ definedRows binary n) :
    m ∈ rowList n ∧ definedSym (binary.getD m ' ') = true := by
  have hmem := withIdx_mem_snd _ 0 s m h
  exact ⟨(List.mem_filter.1 hmem).1, (List.mem_filter.1 hmem).2⟩

theorem covers_char (c : Cube) (n m : Nat) :
    c.covers n m = true ↔
      ∀ l < n, c.mask.testBit l = true → c.bits.testBit l = m.testBit l := by
  rw [Cube.covers]
  simp only [List.all_eq_true, List.mem_range]
  constructor
  · intro h l hl hm
    have := h l hl
    rw [hm] at this
    simpa using this
  · intro h l hl
    cases hmm : c.mask.testBit l
    · simp
    · simp [h l hl hmm]

theorem covers_false_char (c : Cube) (n m : Nat) (h : c.covers n m = false) :
    ∃ l < n, c.mask.testBit l = true ∧ c.bits.testBit l = !m.testBit l := by
  rw [Cube.covers] at h
  simp only [List.all_eq_false, List.mem_range] at h
  obtain ⟨l, hl, hlit⟩ := h
  refine ⟨l, hl, ?_⟩
  cases hmask : c.mask.testBit l <;> cases hbits : c.bits.testBit l <;>
    cases hm : m.testBit l <;> simp_all

theorem satClause_pair_neg (mdl : Model) (a b : Nat) (ha : 0 < a) (hb : 0 < b) :
    satClause mdl [negLit a, negLit b] = (!mdl a || !mdl b) := by
  simp [satClause, evalLit_negLit mdl a ha, evalLit_negLit mdl b hb]

theorem paddedModel_p (binary : List Char) (n k : Nat) (E : esop_t) (hn : 1 ≤ n)
    (j l : Nat) (hj : j < k) (hl : l < n) :
    paddedModel binary n k E (pVar n j l) =
      if j < E.length then cubeP (E.getD j default) l else true := by
  have hmul : n * (j + 1) ≤ n * k := Nat.mul_le_mul_left n hj
  have hexp : n * (j + 1) = n * j + n := by ring
  have h0 : pVar n j l ≠ 0 := by rw [pVar]; omega
  have h1 : pVar n j l ≤ n * k := by rw [pVar]; omega
  rw [paddedModel]
  rw [if_neg h0, if_pos h1, pVar]
  have h2 : 1 + n * j + l - 1 = n * j + l := by omega
  rw [h2, Nat.mul_add_div (by omega), Nat.div_eq_of_lt hl, Nat.mul_add_mod,
    Nat.mod_eq_of_lt hl]
  simp

theorem paddedModel_q (binary : List Char) (n k : Nat) (E : esop_t) (hn : 1 ≤ n)
    (j l : Nat) (hj : j < k) (hl : l < n) :
    paddedModel binary n k E (qVar n k j l) =
      if j < E.length then cubeQ (E.getD j default) l else true := by
  have hmul : n * (j + 1) ≤ n * k := Nat.mul_le_mul_left n hj
  have hexp : n * (j + 1) = n * j + n := by ring
  have hbridge : 2 * n * k = n * k + n * k := by ring
  have h0 : qVar n k j l ≠ 0 := by rw [qVar]; omega
  have h1 : ¬ qVar n k j l ≤ n * k := by rw [qVar]; omega
  have h2 : qVar n k j l ≤ 2 * n * k := by rw [qVar]; omega
  rw [paddedModel]
  rw [if_neg h0, if_neg h1, if_pos h2, qVar]
  have h3 : 1 + n * k + n * j + l - 1 - n * k = n * j + l := by omega
  rw [h3, Nat.mul_add_div (by omega), Nat.div_eq_of_lt hl, Nat.mul_add_mod,
    Nat.mod_eq_of_lt hl]
  simp

theorem paddedModel_z (binary : List Char) (n k : Nat) (E : esop_t) (hk : 1 ≤ k)
    (s j : Nat) (hj : j < k) :
    paddedModel binary n k E (zVar n k s j) =
      if j < E.length then (E.getD j default).covers n (rowOfSample binary n s)
      else false := by
  have hbridge : 2 * n * k = n * k + n * k := by ring
  have h0 : zVar n k s j ≠ 0 := by rw [zVar]; omega
  have h1 : ¬ zVar n k s j ≤ n * k := by rw [zVar]; omega
  have h2 : ¬ zVar n k s j ≤ 2 * n * k := by rw [zVar]; omega
  rw [paddedModel]
  rw [if_neg h0, if_neg h1, if_neg h2, zVar]
  have h3 : 1 + 2 * n * k + s * k + j - 1 - 2 * n * k = s * k + j := by omega
  rw [h3, Nat.mul_comm s k, Nat.mul_add_mod, Nat.mod_eq_of_lt hj,
    Nat.mul_add_div (by omega), Nat.div_eq_of_lt hj]
  simp

theorem foldl_xor_false {α : Type} (f : α → Bool) :
    ∀ (L : List α) (b0 : Bool), (∀ a ∈ L, f a = false) →
      L.foldl (fun b a => xor b (f a)) b0 = b0 := by
  intro L
  induction L with
  | nil => intro b0 _; rfl
  | cons a t ih =>
    intro b0 h
    rw [List.foldl_cons, h a (by simp)]
    simpa using ih (xor b0 false) fun x hx => h x (by simp [hx])

theorem foldl_xor_range_cut (kk len : Nat) (hlen : len ≤ kk) (f : Nat → Bool)
    (hf : ∀ j, len ≤ j → f j = false) :
    (List.range kk).foldl (fun b j => xor b (f j)) false =
      (List.range len).foldl (fun b j => xor b (f j)) false := by
  rw [show kk = len + (kk - len) from by omega, List.range_add, List.foldl_append]
  apply foldl_xor_false
  intro a ha
  obtain ⟨i, hi, hai⟩ := List.mem_map.1 ha
  rw [← hai]
  exact hf (len + i) (by omega)

theorem esopEval_eq_range (E : esop_t) (n m : Nat) :
    esopEval E n m =
      (List.range E.length).foldl
        (fun b j => xor b ((E.getD j default).covers n m)) false := by
  rw [esopEval]
  have hgen : ∀ (E : esop_t) (b0 : Bool),
      E.foldl (fun b c => xor b (c.covers n m)) b0 =
        (List.range E.length).foldl
          (fun b j => xor b ((E.getD j default).covers n m)) b0 := by
    intro E
    induction E with
    | nil => intro b0; simp
    | cons c t ih =>
      intro b0
      rw [List.foldl_cons, ih, List.length_cons, List.range_succ_eq_map,
        List.foldl_cons, List.foldl_map]
      rfl
  exact hgen E false

theorem padded_sat (binary : List Char) (n k : Nat) (hn : 1 ≤ n) (hk : 1 ≤ k)
    (E : esop_t) (hlenE : E.length ≤ k) (hagree : AgreesOnRows binary n E) :
    satC (paddedModel binary n k E) (encodeRows binary n k) = true := by
  rw [encodeRows_eq]
  apply (satC_iff _ _).2
  constructor
  · intro cl hcl
    obtain ⟨sm, hsm, hcl2⟩ := List.mem_flatMap.1 hcl
    obtain ⟨s, m⟩ := sm
    dsimp only at hcl2
    have hrow : rowOfSample binary n s = m := definedRows_rowOfSample binary n s m hsm
    rcases List.mem_append.1 hcl2 with hcl3 | hcl3
    · -- unit-implication clause
      rw [specPosClauses] at hcl3
      obtain ⟨j, hjmem, hcl4⟩ := List.mem_flatMap.1 hcl3
      have hj : j < k := List.mem_range.1 hjmem
      obtain ⟨l, hlmem, hcl5⟩ := List.mem_map.1 hcl4
      have hl : l < n := List.mem_range.1 hlmem
      have hz := paddedModel_z binary n k E hk s j hj
      rw [hrow] at hz
      by_cases hjE : j < E.length
      · rw [if_pos hjE] at hz
        by_cases hcov : (E.getD j default).covers n m = true
        · -- term asserted: its indicators cannot disqualify the row
          have hbits := (covers_char _ n m).1 hcov l hl
          by_cases hbm : m.testBit l = true
          · rw [if_pos hbm] at hcl5
            rw [← hcl5, satClause_pair_neg (paddedModel binary n k E) _ _ (zVar_pos n k s j) (qVar_pos n k j l)]
            rw [paddedModel_q binary n k E hn j l hj hl, if_pos hjE]
            rw [cubeQ]
            by_cases hmask : (E.getD j default).mask.testBit l = true
            · rw [hbits hmask, hbm]
              simp
            · rw [Bool.eq_false_iff.2 hmask]
              simp
          · rw [if_neg hbm] at hcl5
            rw [← hcl5, satClause_pair_neg (paddedModel binary n k E) _ _ (zVar_pos n k s j) (pVar_pos n j l)]
            rw [paddedModel_p binary n k E hn j l hj hl, if_pos hjE]
            rw [cubeP]
            by_cases hmask : (E.getD j default).mask.testBit l = true
            · rw [hbits hmask, Bool.eq_false_iff.2 hbm]
              simp
            · rw [Bool.eq_false_iff.2 hmask]
              simp
        · -- z is false: first literal satisfies the clause
          have hzf : (paddedModel binary n k E) (zVar n k s j) = false := by
            rw [hz]
            cases h : (E.getD j default).covers n m
            · rfl
            · exact absurd h hcov
          by_cases hbm : m.testBit l = true
          · rw [if_pos hbm] at hcl5
            rw [← hcl5, satClause_pair_neg (paddedModel binary n k E) _ _ (zVar_pos n k s j) (qVar_pos n k j l)]
            rw [hzf]
            simp
          · rw [if_neg hbm] at hcl5
            rw [← hcl5, satClause_pair_neg (paddedModel binary n k E) _ _ (zVar_pos n k s j) (pVar_pos n j l)]
            rw [hzf]
            simp
      · -- void slot: z is false
        rw [if_neg hjE] at hz
        by_cases hbm : m.testBit l = true
        · rw [if_pos hbm] at hcl5
          rw [← hcl5, satClause_pair_neg (paddedModel binary n k E) _ _ (zVar_pos n k s j) (qVar_pos n k j l)]
          rw [hz]
          simp
        · rw [if_neg hbm] at hcl5
          rw [← hcl5, satClause_pair_neg (paddedModel binary n k E) _ _ (zVar_pos n k s j) (pVar_pos n j l)]
          rw [hz]
          simp
    · -- converse clause
      obtain ⟨j, hjmem, hcl4⟩ := List.mem_map.1 hcl3
      have hj : j < k := List.mem_range.1 hjmem
      rw [← hcl4, specConvClause, satClause, List.any_cons]
      have hz := paddedModel_z binary n k E hk s j hj
      rw [hrow] at hz
      by_cases hjE : j < E.length
      · rw [if_pos hjE] at hz
        by_cases hcov : (E.getD j default).covers n m = true
        · rw [evalLit_posLit (paddedModel binary n k E) _ (zVar_pos n k s j), hz, hcov]
          simp
        · -- not covering: some disqualifying indicator is set
          have hcov' : (E.getD j default).covers n m = false := by
            cases h : (E.getD j default).covers n m
            · rfl
            · exact absurd h hcov
          obtain ⟨l, hl, hmask, hbits⟩ := covers_false_char _ n m hcov'
          apply Bool.or_eq_true_iff.2
          right
          apply List.any_eq_true.2
          refine ⟨if m.testBit l then posLit (qVar n k j l) else posLit (pVar n j l),
            List.mem_map.2 ⟨l, List.mem_range.2 hl, rfl⟩, ?_⟩
          by_cases hbm : m.testBit l = true
          · rw [if_pos hbm]
            rw [evalLit_posLit (paddedModel binary n k E) _ (qVar_pos n k j l),
              paddedModel_q binary n k E hn j l hj hl, if_pos hjE, cubeQ, hmask, hbits, hbm]
            rfl
          · rw [if_neg hbm]
            rw [evalLit_posLit (paddedModel binary n k E) _ (pVar_pos n j l),
              paddedModel_p binary n k E hn j l hj hl, if_pos hjE, cubeP, hmask, hbits,
              Bool.eq_false_iff.2 hbm]
            rfl
      · -- void slot: every indicator is set; use variable l = 0
        apply Bool.or_eq_true_iff.2
        right
        apply List.any_eq_true.2
        refine ⟨if m.testBit 0 then posLit (qVar n k j 0) else posLit (pVar n j 0),
          List.mem_map.2 ⟨0, List.mem_range.2 (by omega), rfl⟩, ?_⟩
        by_cases hbm : m.testBit 0 = true
        · rw [if_pos hbm]
          rw [evalLit_posLit (paddedModel binary n k E) _ (qVar_pos n k j 0),
            paddedModel_q binary n k E hn j 0 hj (by omega), if_neg hjE]
        · rw [if_neg hbm]
          rw [evalLit_posLit (paddedModel binary n k E) _ (pVar_pos n j 0),
            paddedModel_p binary n k E hn j 0 hj (by omega), if_neg hjE]
  · intro x hx
    obtain ⟨sm, hsm, hx2⟩ := List.mem_map.1 hx
    obtain ⟨s, m⟩ := sm
    dsimp only at hx2
    have hrow : rowOfSample binary n s = m := definedRows_rowOfSample binary n s m hsm
    obtain ⟨hrl, hdef⟩ := mem_definedRows_row binary n s m hsm
    rw [← hx2, satXor, specXorRow]
    apply beq_iff_eq.2
    rw [evalXorList, List.foldl_map]
    have hstep : ∀ (b : Bool), ∀ j ∈ List.range k,
        xor b (evalLit (paddedModel binary n k E) (posLit (zVar n k s j))) =
          xor b (if j < E.length then (E.getD j default).covers n m else false) := by
      intro b j hjm
      rw [evalLit_posLit (paddedModel binary n k E) _ (zVar_pos n k s j),
        paddedModel_z binary n k E hk s j (List.mem_range.1 hjm), hrow]
    rw [foldl_congr_local _ _ _ _ hstep]
    have hcut := foldl_xor_range_cut k E.length hlenE
      (fun j => if j < E.length then (E.getD j default).covers n m else false)
      (fun j hj => by
        show (if j < E.length then (E.getD j default).covers n m else false) = false
        rw [if_neg (by omega)])
    rw [hcut]
    have hsame : (List.range E.length).foldl
        (fun b j => xor b (if j < E.length then (E.getD j default).covers n m else false))
          false =
        (List.range E.length).foldl
          (fun b j => xor b ((E.getD j default).covers n m)) false := by
      apply foldl_congr_local
      intro b j hjm
      rw [if_pos (List.mem_range.1 hjm)]
    rw [hsame, ← esopEval_eq_range]
    have hag := hagree m hrl
    rcases (definedSym_iff _).1 hdef with h0 | h1
    · rw [hag.2 h0, h0]
      rfl
    · rw [hag.1 h1, h1]
      rfl

theorem instSat_of_esop (binary : List Char) (n k : Nat) (hn : 1 ≤ n) (hk : 1 ≤ k)
    (E : esop_t) (hlenE : E.length ≤ k) (hagree : AgreesOnRows binary n E) :
    InstSat binary n k :=
  ⟨paddedModel binary n k E, padded_sat binary n k hn hk E hlenE hagree⟩

/-! ## Permutation invariance of evaluation, and the sorting step -/

theorem foldl_xor_perm (f : Cube → Bool) {E1 E2 : esop_t} (h : E1.Perm E2) :
    ∀ b0 : Bool, E1.foldl (fun b c => xor b (f c)) b0 = E2.foldl (fun b c => xor b (f c)) b0 := by
  induction h with
  | nil => intro b0; rfl
  | cons x h ih => intro b0; rw [List.foldl_cons, List.foldl_cons, ih]
  | swap x y l =>
    intro b0
    rw [List.foldl_cons, List.foldl_cons, List.foldl_cons, List.foldl_cons]
    congr 1
    cases b0 <;> cases f x <;> cases f y <;> rfl
  | trans h1 h2 ih1 ih2 => intro b0; rw [ih1, ih2]

theorem esopEval_perm {E1 E2 : esop_t} (h : E1.Perm E2) (n m : Nat) :
    esopEval E1 n m = esopEval E2 n m :=
  foldl_xor_perm (fun c => c.covers n m) h false

theorem agreesAt_perm {E1 E2 : esop_t} (h : E1.Perm E2) (binary : List Char) (n m : Nat)
    (ha : AgreesAt binary n E1 m) : AgreesAt binary n E2 m := by
  constructor
  · intro h1; rw [← esopEval_perm h]; exact ha.1 h1
  · intro h0; rw [← esopEval_perm h]; exact ha.2 h0

theorem agreesOnRows_iff_table (binary : List Char) (n : Nat) (hn : n ≤ 31) (E : esop_t) :
    AgreesOnRows binary n E ↔ AgreesTable binary n E := by
  rw [AgreesOnRows, AgreesTable, rowList_eq_range n hn]
  constructor
  · intro h m hm; exact h m (List.mem_range.2 hm)
  · intro h m hm; exact h m (List.mem_range.1 hm)

theorem insertCube_perm (n : Nat) (c : Cube) :
    ∀ E : esop_t, (insertCube n c E).Perm (c :: E) := by
  intro E
  induction E with
  | nil => exact List.Perm.refl _
  | cons d t ih =>
    rw [insertCube]
    by_cases h : cubeWeight n c ≤ cubeWeight n d
    · rw [if_pos h]
    · rw [if_neg h]
      exact (List.Perm.cons d ih).trans (List.Perm.swap c d t)

theorem sortCubes_perm (n : Nat) (E : esop_t) : (sortCubes n E).Perm E := by
  rw [sortCubes]
  have hgen : ∀ (E acc : esop_t),
      (E.foldl (fun acc c => insertCube n c acc) acc).Perm (acc ++ E) := by
    intro E
    induction E with
    | nil => intro acc; simp
    | cons c t ih =>
      intro acc
      rw [List.foldl_cons]
      refine (ih (insertCube n c acc)).trans ?_
      refine (List.Perm.append_right t (insertCube_perm n c acc)).trans ?_
      exact (List.perm_middle).symm
  simpa using hgen E []

theorem sortCubes_ne_nil (n : Nat) (E : esop_t) (h : E ≠ []) : sortCubes n E ≠ [] := by
  intro hc
  apply h
  have := (sortCubes_perm n E).length_eq
  rw [hc] at this
  exact List.length_eq_zero.1 this.symm

/-! ## Shape of the inner solve-extract-block loop -/

theorem addBlocking_eq (n k : Nat) (mdl : Model) (C : constraints) :
    addBlocking n k mdl C =
      ⟨C.clauses ++ ((List.range k).permutations).map (blockingClause n k mdl), C.xors⟩ := by
  rw [addBlocking]
  exact foldl_addClause_map _ _ C

theorem innerLoop_done (solve : constraints → Option Model) (n k : Nat) (one : Bool) :
    ∀ (fuel : Nat) (C : constraints) (es res : esops_t),
      innerLoop solve n k one fuel C es = some (InnerRes.done res) →
      ∃ C2 mdl, ClausesExtend C C2 ∧ solve C2 = some mdl ∧
        res = [extractEsop n k mdl] := by
  intro fuel
  induction fuel with
  | zero => intro C es res h; exact absurd h (by rw [innerLoop]; simp)
  | succ f ih =>
    intro C es res h
    rw [innerLoop] at h
    cases hs : solve C with
    | none =>
      rw [hs] at h
      dsimp only at h
      simp at h
    | some mdl =>
      rw [hs] at h
      dsimp only at h
      by_cases he : extractEsop n k mdl = []
      · rw [if_pos he] at h
        simp only [Option.some.injEq, InnerRes.done.injEq] at h
        exact ⟨C, mdl, ClausesExtend.refl C, hs, h.symm⟩
      · rw [if_neg he] at h
        by_cases ho : one = true
        · rw [if_pos ho] at h
          simp only [Option.some.injEq, InnerRes.done.injEq] at h
          exact ⟨C, mdl, ClausesExtend.refl C, hs, h.symm⟩
        · rw [if_neg ho] at h
          obtain ⟨C2, mdl2, hext, hs2, hres⟩ := ih _ _ _ h
          exact ⟨C2, mdl2, (clausesExtend_addBlocking n k mdl C).trans hext, hs2, hres⟩

theorem innerLoop_exhausted_mem (solve : constraints → Option Model) (n k : Nat)
    (one : Bool) :
    ∀ (fuel : Nat) (C : constraints) (es es2 : esops_t),
      innerLoop solve n k one fuel C es = some (InnerRes.exhausted es2) →
      ∀ E ∈ es2, E ∈ es ∨ (E ≠ [] ∧ ∃ C2 mdl, ClausesExtend C C2 ∧ solve C2 = some mdl ∧
        E = sortCubes n (extractEsop n k mdl)) := by
  intro fuel
  induction fuel with
  | zero => intro C es es2 h; exact absurd h (by rw [innerLoop]; simp)
  | succ f ih =>
    intro C es es2 h
    rw [innerLoop] at h
    cases hs : solve C with
    | none =>
      rw [hs] at h
      dsimp only at h
      simp only [Option.some.injEq, InnerRes.exhausted.injEq] at h
      intro E hE
      exact Or.inl (h ▸ hE)
    | some mdl =>
      rw [hs] at h
      dsimp only at h
      by_cases he : extractEsop n k mdl = []
      · rw [if_pos he] at h; simp at h
      · rw [if_neg he] at h
        by_cases ho : one = true
        · rw [if_pos ho] at h; simp at h
        · rw [if_neg ho] at h
          intro E hE
          rcases ih _ _ _ h E hE with hmem | ⟨hne, C2, mdl2, hext, hs2, hsort⟩
          · rcases List.mem_append.1 hmem with hmem2 | hmem2
            · exact Or.inl hmem2
            · right
              refine ⟨sortCubes_ne_nil n _ he ∘ (List.mem_singleton.1 hmem2 ▸ id), ?_⟩
              exact ⟨C, mdl, ClausesExtend.refl C, hs, List.mem_singleton.1 hmem2⟩
          · exact Or.inr ⟨hne, C2, mdl2,
              (clausesExtend_addBlocking n k mdl C).trans hext, hs2, hsort⟩

theorem innerLoop_exhausted_len (solve : constraints → Option Model) (n k : Nat)
    (one : Bool) :
    ∀ (fuel : Nat) (C : constraints) (es es2 : esops_t),
      innerLoop solve n k one fuel C es = some (InnerRes.exhausted es2) →
      es.length ≤ es2.length := by
  intro fuel
  induction fuel with
  | zero => intro C es es2 h; exact absurd h (by rw [innerLoop]; simp)
  | succ f ih =>
    intro C es es2 h
    rw [innerLoop] at h
    cases hs : solve C with
    | none =>
      rw [hs] at h
      dsimp only at h
      simp only [Option.some.injEq, InnerRes.exhausted.injEq] at h
      rw [h]
    | some mdl =>
      rw [hs] at h
      dsimp only at h
      by_cases he : extractEsop n k mdl = []
      · rw [if_pos he] at h; simp at h
      · rw [if_neg he] at h
        by_cases ho : one = true
        · rw [if_pos ho] at h; simp at h
        · rw [if_neg ho] at h
          have := ih _ _ _ h
          simp at this
          omega

theorem innerLoop_exhausted_nil (solve : constraints → Option Model) (n k : Nat)
    (one : Bool) (fuel : Nat) (C : constraints)
    (h : innerLoop solve n k one fuel C [] = some (InnerRes.exhausted [])) :
    solve C = none := by
  cases fuel with
  | zero => exact absurd h (by rw [innerLoop]; simp)
  | succ f =>
    rw [innerLoop] at h
    cases hs : solve C with
    | none => rfl
    | some mdl =>
      rw [hs] at h
      dsimp only at h
      by_cases he : extractEsop n k mdl = []
      · rw [if_pos he] at h; simp at h
      · rw [if_neg he] at h
        by_cases ho : one = true
        · rw [if_pos ho] at h; simp at h
        · rw [if_neg ho] at h
          have := innerLoop_exhausted_len solve n k one f _ _ _ h
          simp at this

/-! ## The outer loop: where the returned ESOPs come from -/

theorem kLoop_models (solve : constraints → Option Model) (binary : List Char) (n : Nat)
    (one : Bool) :
    ∀ (ks : List Nat) (res : esops_t),
      kLoopAux solve binary n one ks [] = SynthResult.ok res →
      res = [] ∨ ∃ kr ∈ ks, ∀ E ∈ res,
        ∃ mdl C2, ClausesExtend (encodeRows binary n kr) C2 ∧ solve C2 = some mdl ∧
          (E = extractEsop n kr mdl ∨ E = sortCubes n (extractEsop n kr mdl)) := by
  intro ks
  induction ks with
  | nil =>
    intro res h
    rw [kLoopAux] at h
    simp only [SynthResult.ok.injEq] at h
    exact Or.inl h.symm
  | cons k rest ih =>
    intro res h
    rw [kLoopAux] at h
    cases hin : innerLoop solve n k one (innerFuel n k) (encodeRows binary n k) [] with
    | none => rw [hin] at h; simp at h
    | some r =>
      rw [hin] at h
      cases r with
      | done r2 =>
        simp only [SynthResult.ok.injEq] at h
        obtain ⟨C2, mdl, hext, hs2, hres⟩ := innerLoop_done solve n k one _ _ _ _ hin
        right
        refine ⟨k, by simp, ?_⟩
        intro E hE
        rw [← h, hres] at hE
        rw [List.mem_singleton.1 hE]
        exact ⟨mdl, C2, hext, hs2, Or.inl rfl⟩
      | exhausted es =>
        dsimp only at h
        by_cases hlen : es.length > 0
        · rw [if_pos hlen] at h
          simp only [SynthResult.ok.injEq] at h
          right
          refine ⟨k, by simp, ?_⟩
          intro E hE
          rw [← h] at hE
          rcases innerLoop_exhausted_mem solve n k one _ _ _ _ hin E hE with
            hmem | ⟨_, C2, mdl, hext, hs2, hsort⟩
          · exact absurd hmem (by simp)
          · exact ⟨mdl, C2, hext, hs2, Or.inr hsort⟩
        · rw [if_neg hlen] at h
          have hes : es = [] := by
            cases es
            · rfl
            · simp at hlen
          rw [hes] at h
          rcases ih res h with h2 | ⟨kr, hkr, h2⟩
          · exact Or.inl h2
          · exact Or.inr ⟨kr, by simp [hkr], h2⟩

/-! ## Acceptance of the input -/

theorem log2_two_pow (n : Nat) : Nat.log2 (2 ^ n) = n := by
  rw [Nat.log2_eq_log_two]
  exact Nat.log_pow (show (1 : Nat) < 2 by norm_num) n

theorem driver_accepts (solve : constraints → Option Model) (binary : List Char)
    (config : Config) (n : Nat) (hlen : binary.length = 2 ^ n) (hn : n ≤ 32) :
    exact_synthesis_from_binary_string solve binary config =
      kLoopAux solve binary n config.one_esop
        ((List.range config.maximum_cubes).map (· + 1)) [] := by
  rw [exact_synthesis_from_binary_string]
  have hlog : Nat.log2 binary.length = n := by rw [hlen, log2_two_pow]
  rw [hlog, if_pos ⟨by rw [hlen], hn⟩]

/-! ## The reference brute-force solver is sound and complete -/

theorem any_congr_local {α : Type} (L : List α) (f g : α → Bool)
    (h : ∀ a ∈ L, f a = g a) : L.any f = L.any g := by
  induction L with
  | nil => rfl
  | cons a t ih =>
    simp only [List.any_cons, h a (by simp)]
    rw [ih fun x hx => h x (by simp [hx])]

theorem foldl_max_mem {α : Type} (f : α → Nat) :
    ∀ (L : List α) (a0 : Nat), ∀ x ∈ L, f x ≤ L.foldl (fun a x => max a (f x)) a0 := by
  intro L
  induction L with
  | nil => intro a0 x hx; exact absurd hx (by simp)
  | cons b t ih =>
    intro a0 x hx
    rw [List.foldl_cons]
    rcases List.mem_cons.1 hx with hx | hx
    · subst hx
      have hinit : ∀ (L2 : List α) (a1 : Nat), a1 ≤ L2.foldl (fun a x => max a (f x)) a1 := by
        intro L2
        induction L2 with
        | nil => intro a1; exact Nat.le_refl a1
        | cons c t2 ih2 =>
          intro a1
          rw [List.foldl_cons]
          exact le_trans (le_max_left a1 (f c)) (ih2 _)
      exact le_trans (le_max_right a0 (f x)) (hinit t _)
    · exact ih _ x hx

theorem natAbs_le_maxVar (C : constraints) :
    (∀ cl ∈ C.clauses, ∀ lit ∈ cl, lit.natAbs ≤ maxVar C) ∧
      (∀ x ∈ C.xors, ∀ lit ∈ x.1, lit.natAbs ≤ maxVar C) := by
  constructor
  · intro cl hcl lit hlit
    have h1 : lit.natAbs ≤ maxVarClause cl := foldl_max_mem _ cl 0 lit hlit
    have h2 : maxVarClause cl ≤ C.clauses.foldl (fun a cl => max a (maxVarClause cl)) 0 :=
      foldl_max_mem _ _ 0 cl hcl
    exact le_trans (le_trans h1 h2) (le_max_left _ _)
  · intro x hx lit hlit
    have h1 : lit.natAbs ≤ maxVarClause x.1 := foldl_max_mem _ x.1 0 lit hlit
    have h2 : maxVarClause x.1 ≤ C.xors.foldl (fun a x => max a (maxVarClause x.1)) 0 :=
      foldl_max_mem (fun x => maxVarClause x.1) _ 0 x hx
    exact le_trans (le_trans h1 h2) (le_max_right _ _)

theorem evalLit_ext (m1 m2 : Model) (lit : Int) (W : Nat) (hW : lit.natAbs ≤ W)
    (h : ∀ v, 1 ≤ v → v ≤ W → m1 v = m2 v) : evalLit m1 lit = evalLit m2 lit := by
  rw [evalLit, evalLit]
  by_cases h1 : 0 < lit
  · rw [if_pos h1, if_pos h1]
    apply h <;> omega
  · rw [if_neg h1, if_neg h1]
    by_cases h2 : lit < 0
    · rw [if_pos h2, if_pos h2]
      have := h (-lit).toNat (by omega) (by omega)
      rw [this]
    · rw [if_neg h2, if_neg h2]

theorem satC_ext (C : constraints) (m1 m2 : Model)
    (h : ∀ v, 1 ≤ v → v ≤ maxVar C → m1 v = m2 v) : satC m1 C = satC m2 C := by
  obtain ⟨hb1, hb2⟩ := natAbs_le_maxVar C
  rw [satC, satC]
  congr 1
  · apply all_congr_local
    intro cl hcl
    rw [satClause, satClause]
    apply any_congr_local
    intro lit hlit
    exact evalLit_ext m1 m2 lit _ (hb1 cl hcl lit hlit) h
  · apply all_congr_local
    intro x hx
    rw [satXor, satXor]
    congr 1
    rw [evalXorList, evalXorList]
    apply foldl_congr_local
    intro b lit hlit
    rw [evalLit_ext m1 m2 lit _ (hb2 x hx lit hlit) h]

theorem exists_bits (g : Nat → Bool) :
    ∀ W : Nat, ∃ bits, bits < 2 ^ W ∧ ∀ i < W, bits.testBit i = g i := by
  intro W
  induction W with
  | zero => exact ⟨0, by norm_num, fun i hi => absurd hi (by omega)⟩
  | succ W ih =>
    obtain ⟨b0, hb0, hbit⟩ := ih
    refine ⟨b0 ||| (if g W then 2 ^ W else 0), ?_, ?_⟩
    · apply Nat.or_lt_two_pow
      · exact lt_of_lt_of_le hb0 (Nat.pow_le_pow_right (by norm_num) (by omega))
      · split
        · exact Nat.pow_lt_pow_right (by norm_num) (by omega)
        · exact Nat.pos_pow_of_pos _ (by norm_num)
    · intro i hi
      rw [Nat.testBit_or]
      by_cases hiW : i < W
      · rw [hbit i hiW]
        have hz : (if g W then 2 ^ W else 0).testBit i = false := by
          split
          · rw [Nat.testBit_two_pow]
            simp
            omega
          · simp
        rw [hz, Bool.or_false]
      · have hiw : i = W := by omega
        subst hiw
        have hb0t : b0.testBit i = false := Nat.testBit_lt_two_pow hb0
        rw [hb0t, Bool.false_or]
        cases hg : g i
        · simp
        · rw [if_pos rfl, Nat.testBit_two_pow]
          simp

theorem bruteSolve_sound : SolverSound bruteSolve := by
  intro C mdl h
  rw [bruteSolve] at h
  cases hf : (List.range (2 ^ maxVar C)).find? (fun bits => satC (modelOfBits bits) C) with
  | none => rw [hf] at h; simp at h
  | some bits =>
    rw [hf] at h
    simp only [Option.map_some', Option.some.injEq] at h
    have hsat := List.find?_some hf
    rw [← h]
    exact hsat

theorem bruteSolve_complete : SolverComplete bruteSolve := by
  intro C h mdl
  rw [bruteSolve] at h
  cases hf : (List.range (2 ^ maxVar C)).find? (fun bits => satC (modelOfBits bits) C) with
  | some bits => rw [hf] at h; simp at h
  | none =>
    have hall := List.find?_eq_none.1 hf
    obtain ⟨bits, hlt, hbit⟩ := exists_bits (fun i => mdl (i + 1)) (maxVar C)
    have heq : satC mdl C = satC (modelOfBits bits) C := by
      apply satC_ext
      intro v h1 h2
      show mdl v = bits.testBit (v - 1)
      rw [hbit (v - 1) (by omega)]
      congr 1
      omega
    rw [heq]
    have hb := hall bits (List.mem_range.2 hlt)
    cases hcc : satC (modelOfBits bits) C
    · rfl
    · exact absurd hcc hb

/-! ## Claim theorems -/

/-- Claim C3: for every `k` and every table row whose symbol is 0 or 1 (rows
with any other symbol contribute no constraints), the encoder adds exactly,
in visiting order: for each term `j` and variable `l` the unit-implication
clause (negated `z`, negated `q` when the row bit is 1, negated `p` when it
is 0); for each term `j` the single converse clause `z(j)` followed by the
`q`/`p` indicators selected by the row bits; and one XOR constraint over the
row's `z(0..k-1)` with target parity "symbol is 1". -/
theorem c3_encoder_exact_constraints (binary : List Char) (n k : Nat) :
    encodeRows binary n k =
      ⟨(definedRows binary n).flatMap fun sm =>
          specPosClauses n k sm.1 sm.2 ++ (List.range k).map (specConvClause n k sm.1 sm.2),
        (definedRows binary n).map fun sm =>
          specXorRow n k sm.1 (binary.getD sm.2 ' ' == '1')⟩ :=
  encodeRows_eq binary n k

/-- Claim C4: extraction decodes each term `j` by reading `p(j,l)` and
`q(j,l)` for every variable `l`: when both hold for some `l` the term is
void and omitted; otherwise `p` yields a positive literal, `q` a negative
literal, and both false leaves the variable don't-care; the non-void cubes
are appended to the output ESOP in slot order. -/
theorem c4_extraction_decodes (n k : Nat) (hn : n ≤ 32) (mdl : Model) (j : Nat) :
    (extractCube n k mdl j = none ↔
      ∃ l < n, mdl (pVar n j l) = true ∧ mdl (qVar n k j l) = true) ∧
    (∀ c, extractCube n k mdl j = some c → ∀ l < n,
      (mdl (pVar n j l) = true → c.mask.testBit l = true ∧ c.bits.testBit l = true) ∧
      (mdl (qVar n k j l) = true → c.mask.testBit l = true ∧ c.bits.testBit l = false) ∧
      (mdl (pVar n j l) = false → mdl (qVar n k j l) = false → c.mask.testBit l = false)) ∧
    extractEsop n k mdl = (List.range k).filterMap (extractCube n k mdl) := by
  refine ⟨extractCube_none_iff n k hn mdl j, ?_, extractEsop_eq_filterMap n k mdl⟩
  intro c hc l hl
  obtain ⟨hnv, hbit⟩ := extractCube_some_spec n k hn mdl j c hc
  obtain ⟨hm, hb⟩ := hbit l
  refine ⟨?_, ?_, ?_⟩
  · intro hp
    have hq : mdl (qVar n k j l) = false := by
      cases hqq : mdl (qVar n k j l)
      · rfl
      · exact absurd ⟨hp, hqq⟩ (hnv l hl)
    rw [hm, hb, hp, hq]
    simp [hl]
  · intro hq
    have hp : mdl (pVar n j l) = false := by
      cases hpp : mdl (pVar n j l)
      · rfl
      · exact absurd ⟨hpp, hq⟩ (hnv l hl)
    rw [hm, hb, hp, hq]
    simp [hl]
  · intro hp hq
    rw [hm, hp, hq]
    simp

theorem c4_extraction_decodes_witness :
    (1 ≤ 32) ∧
    ((extractCube 1 1 (modelOfBits 1) 0 = none ↔
      ∃ l < 1, modelOfBits 1 (pVar 1 0 l) = true ∧ modelOfBits 1 (qVar 1 1 0 l) = true) ∧
    (∀ c, extractCube 1 1 (modelOfBits 1) 0 = some c → ∀ l < 1,
      (modelOfBits 1 (pVar 1 0 l) = true → c.mask.testBit l = true ∧ c.bits.testBit l = true) ∧
      (modelOfBits 1 (qVar 1 1 0 l) = true →
        c.mask.testBit l = true ∧ c.bits.testBit l = false) ∧
      (modelOfBits 1 (pVar 1 0 l) = false → modelOfBits 1 (qVar 1 1 0 l) = false →
        c.mask.testBit l = false)) ∧
    extractEsop 1 1 (modelOfBits 1) = (List.range 1).filterMap (extractCube 1 1 (modelOfBits 1))) :=
  ⟨by norm_num, c4_extraction_decodes 1 1 (by norm_num) (modelOfBits 1) 0⟩

/-- Claim C8: an input whose length is not an exact power of two, or whose
length exceeds `2^32` (more than 32 variables), is rejected by the
precondition checks before any encoding work. -/
theorem c8_rejects_malformed (solve : constraints → Option Model) (binary : List Char)
    (config : Config)
    (h : (¬ ∃ m : Nat, binary.length = 2 ^ m) ∨ 2 ^ 32 < binary.length) :
    exact_synthesis_from_binary_string solve binary config = SynthResult.rejected := by
  rw [exact_synthesis_from_binary_string]
  rw [if_neg]
  intro hcond
  obtain ⟨h1, h2⟩ := hcond
  rcases h with h | h
  · exact h ⟨Nat.log2 binary.length, h1⟩
  · rw [h1] at h
    have hle : 2 ^ Nat.log2 binary.length ≤ 2 ^ 32 :=
      Nat.pow_le_pow_right (by norm_num) h2
    omega

theorem c8_rejects_malformed_witness :
    (¬ ∃ m : Nat, (['0', '1', '1'] : List Char).length = 2 ^ m) ∧
    exact_synthesis_from_binary_string bruteSolve ['0', '1', '1'] {} =
      SynthResult.rejected := by
  have hne : ¬ ∃ m : Nat, (['0', '1', '1'] : List Char).length = 2 ^ m := by
    rintro ⟨m, hm⟩
    simp only [List.length_cons, List.length_nil] at hm
    rcases m with _ | _ | m
    · norm_num at hm
    · norm_num at hm
    · rw [pow_succ, pow_succ] at hm
      have hpos : 0 < 2 ^ m := Nat.pos_pow_of_pos m (by norm_num)
      omega
  exact ⟨hne, c8_rejects_malformed bruteSolve _ _ (Or.inl hne)⟩

/-- Claim C9 (supporting theorem): for `1 ≤ n ≤ 31` the encoding loop visits
every one of the `2^n` rows exactly once in increasing order, but for
`n = 32`, which the assertions accept, the 32-bit loop bound `1 << 32`
overflows and the loop stops after visiting only row 0. -/
theorem c9_row_enumeration :
    (∀ n, 1 ≤ n → n ≤ 31 → rowList n = List.range (2 ^ n)) ∧ rowList 32 = [0] :=
  ⟨fun n _ hn => rowList_eq_range n hn, rowList_32_eq⟩

theorem c9_row_enumeration_witness :
    ((1 : Nat) ≤ 2 ∧ (2 : Nat) ≤ 31 ∧ rowList 2 = List.range (2 ^ 2)) ∧ rowList 32 = [0] :=
  ⟨⟨by norm_num, by norm_num, c9_row_enumeration.1 2 (by norm_num) (by norm_num)⟩,
    c9_row_enumeration.2⟩

/-- Claim C10: whenever a solver model decodes to an ESOP with zero cubes,
the inner loop immediately returns the single-element sequence containing
only the empty ESOP, in enumeration mode as well, discarding any ESOPs
already accumulated for the current `k`. -/
theorem c10_empty_decode_returns (solve : constraints → Option Model) (n k : Nat)
    (one : Bool) (fuel : Nat) (C : constraints) (esops : esops_t) (mdl : Model)
    (hs : solve C = some mdl) (he : extractEsop n k mdl = []) :
    innerLoop solve n k one (fuel + 1) C esops = some (InnerRes.done [[]]) := by
  rw [innerLoop, hs]
  dsimp only
  rw [if_pos he, he]

theorem c10_empty_decode_returns_witness :
    (fun _ : constraints => some (fun _ : Nat => true)) ⟨[], []⟩ =
      some (fun _ : Nat => true) ∧
    extractEsop 1 1 (fun _ : Nat => true) = [] ∧
    innerLoop (fun _ : constraints => some (fun _ : Nat => true)) 1 1 false 1
      ⟨[], []⟩ [[⟨1, 1⟩]] = some (InnerRes.done [[]]) := by
  refine ⟨rfl, by decide, ?_⟩
  exact c10_empty_decode_returns (fun _ => some (fun _ => true)) 1 1 false 0
    ⟨[], []⟩ [[⟨1, 1⟩]] (fun _ => true) rfl (by decide)

/-- Claim C1 (supporting theorem): for accepted inputs with `n ≤ 31` input
variables and a solver returning only genuine satisfying assignments, every
ESOP in the returned sequence reproduces the table's 0/1 entries at every
one of the `2^n` assignments (don't-cares unconstrained).  At `n = 32` the
row loop defect makes this fail, see claim C9. -/
theorem c1_returned_esops_match_table (solve : constraints → Option Model)
    (binary : List Char) (config : Config) (n : Nat) (res : esops_t)
    (hsound : SolverSound solve) (hlen : binary.length = 2 ^ n) (hn : n ≤ 31)
    (hrun : exact_synthesis_from_binary_string solve binary config = SynthResult.ok res) :
    ∀ E ∈ res, AgreesTable binary n E := by
  rw [driver_accepts solve binary config n hlen (by omega)] at hrun
  rcases kLoop_models solve binary n config.one_esop _ res hrun with hnil | ⟨kr, _, hchr⟩
  · intro E hE
    rw [hnil] at hE
    exact absurd hE (by simp)
  · intro E hE
    obtain ⟨mdl, C2, hext, hsolve, hform⟩ := hchr E hE
    have hsat2 := hsound C2 mdl hsolve
    have hsat : satC mdl (encodeRows binary n kr) = true :=
      satClause_of_extend mdl _ C2 hext hsat2
    have hagree : AgreesOnRows binary n (extractEsop n kr mdl) :=
      decode_sound binary n kr (by omega) mdl hsat
    have htable := (agreesOnRows_iff_table binary n hn _).1 hagree
    rcases hform with rfl | rfl
    · exact htable
    · intro m hm
      exact agreesAt_perm (sortCubes_perm n _).symm binary n m (htable m hm)

theorem c1_returned_esops_match_table_witness :
    SolverSound bruteSolve ∧ (['0', '1'] : List Char).length = 2 ^ 1 ∧ (1 : Nat) ≤ 31 ∧
    exact_synthesis_from_binary_string bruteSolve ['0', '1'] {} =
      SynthResult.ok [[⟨1, 1⟩]] ∧
    ∀ E ∈ ([[⟨1, 1⟩]] : esops_t), AgreesTable ['0', '1'] 1 E := by
  have hrun : exact_synthesis_from_binary_string bruteSolve ['0', '1'] {} =
      SynthResult.ok [[⟨1, 1⟩]] := by
    rw [driver_accepts bruteSolve ['0', '1'] {} 1 rfl (by norm_num)]
    decide
  exact ⟨bruteSolve_sound, rfl, by norm_num, hrun,
    c1_returned_esops_match_table bruteSolve ['0', '1'] {} 1 [[⟨1, 1⟩]]
      bruteSolve_sound rfl (by norm_num) hrun⟩

/-! ## Blocking clauses and the termination measure -/

theorem pVar_le (n k j l : Nat) (hj : j < k) (hl : l < n) : pVar n j l ≤ n * k := by
  have hmul : n * (j + 1) ≤ n * k := Nat.mul_le_mul_left n hj
  have hexp : n * (j + 1) = n * j + n := by ring
  rw [pVar]
  omega

theorem qVar_le (n k j l : Nat) (hj : j < k) (hl : l < n) : qVar n k j l ≤ 2 * n * k := by
  have hmul : n * (j + 1) ≤ n * k := Nat.mul_le_mul_left n hj
  have hexp : n * (j + 1) = n * j + n := by ring
  have hbridge : 2 * n * k = n * k + n * k := by ring
  rw [qVar]
  omega

theorem foldl_append_flatMap {α β : Type} (h : α → List β) :
    ∀ (L : List α) (acc : List β),
      L.foldl (fun cl x => cl ++ h x) acc = acc ++ L.flatMap h := by
  intro L
  induction L with
  | nil => intro acc; simp
  | cons a t ih => intro acc; rw [List.foldl_cons, ih]; simp

theorem blockingClause_eq (n k : Nat) (mdl : Model) (vs : List Nat) :
    blockingClause n k mdl vs =
      (List.range vs.length).flatMap fun j =>
        (List.range n).flatMap fun l =>
          [if mdl (pVar n j l) then negLit (pVar n (vs.getD j 0) l)
            else posLit (pVar n (vs.getD j 0) l),
           if mdl (qVar n k j l) then negLit (qVar n k (vs.getD j 0) l)
            else posLit (qVar n k (vs.getD j 0) l)] := by
  rw [blockingClause]
  have hinner : ∀ (j : Nat) (acc : Clause),
      ((List.range n).foldl (fun cl l =>
        cl ++ [if mdl (pVar n j l) then negLit (pVar n (vs.getD j 0) l)
            else posLit (pVar n (vs.getD j 0) l),
          if mdl (qVar n k j l) then negLit (qVar n k (vs.getD j 0) l)
            else posLit (qVar n k (vs.getD j 0) l)]) acc) =
      acc ++ (List.range n).flatMap (fun l =>
        [if mdl (pVar n j l) then negLit (pVar n (vs.getD j 0) l)
          else posLit (pVar n (vs.getD j 0) l),
         if mdl (qVar n k j l) then negLit (qVar n k (vs.getD j 0) l)
          else posLit (qVar n k (vs.getD j 0) l)]) := by
    intro j acc
    exact foldl_append_flatMap _ (List.range n) acc
  have houter : ∀ (L : List Nat) (acc : Clause),
      (L.foldl (fun cl j =>
        (List.range n).foldl (fun cl l =>
          cl ++ [if mdl (pVar n j l) then negLit (pVar n (vs.getD j 0) l)
              else posLit (pVar n (vs.getD j 0) l),
            if mdl (qVar n k j l) then negLit (qVar n k (vs.getD j 0) l)
              else posLit (qVar n k (vs.getD j 0) l)]) cl) acc) =
      acc ++ L.flatMap (fun j => (List.range n).flatMap (fun l =>
        [if mdl (pVar n j l) then negLit (pVar n (vs.getD j 0) l)
          else posLit (pVar n (vs.getD j 0) l),
         if mdl (qVar n k j l) then negLit (qVar n k (vs.getD j 0) l)
          else posLit (qVar n k (vs.getD j 0) l)])) := by
    intro L
    induction L with
    | nil => intro acc; simp
    | cons a t ih =>
      intro acc
      rw [List.foldl_cons, hinner a acc, ih]
      simp
  rw [houter]
  simp

theorem flatMap_congr_local {α β : Type} (L : List α) (f g : α → List β)
    (h : ∀ a ∈ L, f a = g a) : L.flatMap f = L.flatMap g := by
  induction L with
  | nil => rfl
  | cons a t ih =>
    rw [List.flatMap_cons, List.flatMap_cons, h a (by simp),
      ih fun x hx => h x (by simp [hx])]

theorem range_getD (k j : Nat) (hj : j < k) : (List.range k).getD j 0 = j := by
  rw [List.getD_eq_getElem?_getD, List.getElem?_range hj]
  rfl

theorem blockingClause_congr (n k : Nat) (m1 m2 : Model) (vs : List Nat)
    (h : ∀ v, 1 ≤ v → v ≤ 2 * n * k → m1 v = m2 v) (hlen : vs.length = k) :
    blockingClause n k m1 vs = blockingClause n k m2 vs := by
  rw [blockingClause_eq, blockingClause_eq]
  apply flatMap_congr_local
  intro j hjm
  apply flatMap_congr_local
  intro l hlm
  have hj : j < k := by rw [← hlen]; exact List.mem_range.1 hjm
  have hl : l < n := List.mem_range.1 hlm
  rw [h (pVar n j l) (pVar_pos n j l) (le_trans (pVar_le n k j l hj hl)
      (by have hbridge : 2 * n * k = n * k + n * k := by ring
          omega)),
    h (qVar n k j l) (qVar_pos n k j l) (qVar_le n k j l hj hl)]

theorem blockingClause_pqRestrict (n k : Nat) (mdl : Model) :
    blockingClause n k (modelOfVec (2 * n * k) (pqRestrict n k mdl)) (List.range k) =
      blockingClause n k mdl (List.range k) := by
  apply blockingClause_congr
  · intro v h1 h2
    rw [modelOfVec]
    rw [dif_pos ⟨h1, h2⟩]
    show mdl (⟨v - 1, by omega⟩ : Fin (2 * n * k)).val.succ = mdl v
    congr 1
    show v - 1 + 1 = v
    omega
  · exact List.length_range k

theorem satClause_own_blocking (n k : Nat) (mdl : Model) :
    satClause mdl (blockingClause n k mdl (List.range k)) = false := by
  rw [blockingClause_eq, satClause]
  simp only [List.any_eq_false]
  intro lit hlit
  obtain ⟨j, hjm, hlit2⟩ := List.mem_flatMap.1 hlit
  obtain ⟨l, hlm, hlit3⟩ := List.mem_flatMap.1 hlit2
  have hj : j < k := by
    have := List.mem_range.1 hjm
    rwa [List.length_range] at this
  have hgd : (List.range k).getD j 0 = j := range_getD k j hj
  rw [hgd] at hlit3
  simp only [List.mem_cons, List.not_mem_nil, or_false] at hlit3
  rcases hlit3 with h | h
  · subst h
    cases hp : mdl (pVar n j l) <;>
      simp [evalLit_posLit mdl _ (pVar_pos n j l),
        evalLit_negLit mdl _ (pVar_pos n j l), hp]
  · subst h
    cases hq : mdl (qVar n k j l) <;>
      simp [evalLit_posLit mdl _ (qVar_pos n k j l),
        evalLit_negLit mdl _ (qVar_pos n k j l), hq]

theorem satClause_blocking_ne (n k : Nat) (mdl1 mdl2 : Model)
    (h : satClause mdl2 (blockingClause n k mdl1 (List.range k)) = true) :
    pqRestrict n k mdl2 ≠ pqRestrict n k mdl1 := by
  intro heq
  have hbc : blockingClause n k mdl1 (List.range k) =
      blockingClause n k mdl2 (List.range k) := by
    rw [← blockingClause_pqRestrict n k mdl1, ← blockingClause_pqRestrict n k mdl2, heq]
  rw [hbc, satClause_own_blocking n k mdl2] at h
  exact absurd h (by simp)

theorem identity_mem_permutations (k : Nat) :
    List.range k ∈ (List.range k).permutations :=
  List.mem_permutations.2 (List.Perm.refl _)

theorem blocking_mem_addBlocking (n k : Nat) (mdl : Model) (C : constraints)
    (vs : List Nat) (hvs : vs ∈ (List.range k).permutations) :
    blockingClause n k mdl vs ∈ (addBlocking n k mdl C).clauses := by
  rw [addBlocking_eq]
  exact List.mem_append_right _ (List.mem_map.2 ⟨vs, hvs, rfl⟩)

theorem freeCount_le (n k : Nat) (C : constraints) :
    freeCount n k C ≤ 2 ^ (2 * n * k) := by
  rw [freeCount]
  calc (Finset.univ.filter _).card ≤ (Finset.univ : Finset (Fin (2 * n * k) → Bool)).card :=
        Finset.card_filter_le _ _
    _ = 2 ^ (2 * n * k) := by
        rw [Finset.card_univ, Fintype.card_fun]
        simp

theorem freeCount_decrease (n k : Nat) (C : constraints) (mdl : Model)
    (hsat : satC mdl C = true) :
    freeCount n k (addBlocking n k mdl C) < freeCount n k C := by
  have hmem : pqRestrict n k mdl ∈ Finset.univ.filter
      (fun β : Fin (2 * n * k) → Bool =>
        blockingClause n k (modelOfVec (2 * n * k) β) (List.range k) ∉ C.clauses) := by
    apply Finset.mem_filter.2
    refine ⟨Finset.mem_univ _, ?_⟩
    rw [blockingClause_pqRestrict]
    intro hin
    have := ((satC_iff mdl C).1 hsat).1 _ hin
    rw [satClause_own_blocking n k mdl] at this
    exact absurd this (by simp)
  have hsub : Finset.univ.filter (fun β : Fin (2 * n * k) → Bool =>
      blockingClause n k (modelOfVec (2 * n * k) β) (List.range k) ∉
        (addBlocking n k mdl C).clauses) ⊆
      (Finset.univ.filter (fun β : Fin (2 * n * k) → Bool =>
        blockingClause n k (modelOfVec (2 * n * k) β) (List.range k) ∉ C.clauses)).erase
        (pqRestrict n k mdl) := by
    intro β hβ
    obtain ⟨_, hβ2⟩ := Finset.mem_filter.1 hβ
    apply Finset.mem_erase.2
    constructor
    · intro heq
      apply hβ2
      rw [heq, blockingClause_pqRestrict]
      exact blocking_mem_addBlocking n k mdl C _ (identity_mem_permutations k)
    · apply Finset.mem_filter.2
      refine ⟨Finset.mem_univ _, ?_⟩
      intro hin
      exact hβ2 ((clausesExtend_addBlocking n k mdl C).1 _ hin)
  calc freeCount n k (addBlocking n k mdl C)
      ≤ ((Finset.univ.filter (fun β : Fin (2 * n * k) → Bool =>
          blockingClause n k (modelOfVec (2 * n * k) β) (List.range k) ∉ C.clauses)).erase
            (pqRestrict n k mdl)).card := Finset.card_le_card hsub
    _ < freeCount n k C := by
        rw [Finset.card_erase_of_mem hmem]
        have hpos : 0 < freeCount n k C := Finset.card_pos.2 ⟨_, hmem⟩
        rw [freeCount] at hpos ⊢
        omega

theorem innerLoop_no_fuelOut (solve : constraints → Option Model) (n k : Nat)
    (one : Bool) (hsound : SolverSound solve) :
    ∀ (fuel : Nat) (C : constraints) (es : esops_t), freeCount n k C < fuel →
      innerLoop solve n k one fuel C es ≠ none := by
  intro fuel
  induction fuel with
  | zero => intro C es h; omega
  | succ f ih =>
    intro C es h
    rw [innerLoop]
    cases hs : solve C with
    | none => simp
    | some mdl =>
      dsimp only
      by_cases he : extractEsop n k mdl = []
      · rw [if_pos he]; simp
      · rw [if_neg he]
        by_cases ho : one = true
        · rw [if_pos ho]; simp
        · rw [if_neg ho]
          apply ih
          have hdec := freeCount_decrease n k C mdl (hsound C mdl hs)
          omega

/-- Claim C6: with a solver that returns only genuine satisfying
assignments, the inner solve-extract-block loop terminates for every `k`:
each enumeration iteration adds one blocking clause per permutation of the
`k` term indices (`k!` clauses), no later model can repeat the p/q
assignment of an already-found model (its identity blocking clause forbids
it), and since the p/q space is finite the loop ends within `2^(2nk) + 1`
iterations (the fuel the driver provides is never exhausted). -/
theorem c6_inner_loop_terminates (solve : constraints → Option Model)
    (binary : List Char) (n k : Nat) (one : Bool) (es : esops_t)
    (hsound : SolverSound solve) :
    (∀ (C : constraints) (mdl : Model),
      (addBlocking n k mdl C).clauses.length = C.clauses.length + Nat.factorial k) ∧
    (∀ (C : constraints) (mdl1 mdl2 : Model),
      satC mdl2 (addBlocking n k mdl1 C) = true →
        pqRestrict n k mdl2 ≠ pqRestrict n k mdl1) ∧
    innerLoop solve n k one (innerFuel n k) (encodeRows binary n k) es ≠ none := by
  refine ⟨?_, ?_, ?_⟩
  · intro C mdl
    rw [addBlocking_eq]
    simp [List.length_permutations]
  · intro C mdl1 mdl2 hsat
    have hmem : blockingClause n k mdl1 (List.range k) ∈
        (addBlocking n k mdl1 C).clauses :=
      blocking_mem_addBlocking n k mdl1 C _ (identity_mem_permutations k)
    have hcl := ((satC_iff mdl2 _).1 hsat).1 _ hmem
    exact satClause_blocking_ne n k mdl1 mdl2 hcl
  · apply innerLoop_no_fuelOut solve n k one hsound
    rw [innerFuel]
    have := freeCount_le n k (encodeRows binary n k)
    omega

theorem c6_inner_loop_terminates_witness :
    SolverSound bruteSolve ∧
    ((∀ (C : constraints) (mdl : Model),
      (addBlocking 1 1 mdl C).clauses.length = C.clauses.length + Nat.factorial 1) ∧
    (∀ (C : constraints) (mdl1 mdl2 : Model),
      satC mdl2 (addBlocking 1 1 mdl1 C) = true →
        pqRestrict 1 1 mdl2 ≠ pqRestrict 1 1 mdl1) ∧
    innerLoop bruteSolve 1 1 false (innerFuel 1 1) (encodeRows ['0', '1'] 1 1) [] ≠ none) :=
  ⟨bruteSolve_sound,
    c6_inner_loop_terminates bruteSolve ['0', '1'] 1 1 false [] bruteSolve_sound⟩

/-! ## Index form of a list permutation -/

theorem getD_eq_getElem_local {α : Type} (l : List α) (i : Nat) (d : α) (h : i < l.length) :
    l.getD i d = l[i] := by
  rw [List.getD_eq_getElem?_getD, List.getElem?_eq_getElem h]
  rfl

theorem map_getD_range {α : Type} (l : List α) (d : α) :
    (List.range l.length).map (fun i => l.getD i d) = l := by
  apply List.ext_getElem
  · simp
  · intro i h1 h2
    simp only [List.getElem_map, List.getElem_range]
    rw [getD_eq_getElem_local l i d h2]

theorem getD_map_local {α β : Type} (f : α → β) (l : List α) (i : Nat) (d : β) (d0 : α)
    (h : i < l.length) : (l.map f).getD i d = f (l.getD i d0) := by
  rw [getD_eq_getElem_local _ i d (by simpa using h), List.getElem_map,
    getD_eq_getElem_local l i d0 h]

theorem perm_index {α : Type} (d : α) {l1 l2 : List α} (h : l1.Perm l2) :
    ∃ is : List Nat, is.Perm (List.range l1.length) ∧
      l2 = is.map fun i => l1.getD i d := by
  induction h with
  | nil => exact ⟨[], by simp, by simp⟩
  | @cons x t1 t2 h ih =>
    obtain ⟨is, hp, he⟩ := ih
    refine ⟨0 :: is.map (· + 1), ?_, ?_⟩
    · rw [List.length_cons, List.range_succ_eq_map]
      exact (hp.map (· + 1)).cons 0
    · rw [List.map_cons, List.map_map, he]
      congr 1
  | @swap x y l =>
    refine ⟨1 :: 0 :: (List.range l.length).map (· + 2), ?_, ?_⟩
    · have hr : List.range (y :: x :: l).length = 0 :: 1 :: (List.range l.length).map (· + 2) := by
        simp only [List.length_cons]
        rw [List.range_succ_eq_map, List.range_succ_eq_map, List.map_cons, List.map_map]
        rfl
      rw [hr]
      exact List.Perm.swap 0 1 _
    · rw [List.map_cons, List.map_cons, List.map_map]
      have h1 : (y :: x :: l).getD 1 d = x := by rw [List.getD_cons_succ, List.getD_cons_zero]
      have h0 : (y :: x :: l).getD 0 d = y := List.getD_cons_zero
      rw [h1, h0]
      congr 1
      congr 1
      conv_lhs => rw [← map_getD_range l d]
      apply List.map_congr_left
      intro a _
      show l.getD a d = (y :: x :: l).getD (a + 2) d
      rw [List.getD_cons_succ, List.getD_cons_succ]
  | @trans l1 l2 l3 h1 h2 ih1 ih2 =>
    obtain ⟨is12, hp12, he12⟩ := ih1
    obtain ⟨is23, hp23, he23⟩ := ih2
    have hlen2 : l2.length = is12.length := by rw [he12, List.length_map]
    refine ⟨is23.map (fun i => is12.getD i 0), ?_, ?_⟩
    · have h1p : (is23.map fun i => is12.getD i 0).Perm
          ((List.range l2.length).map fun i => is12.getD i 0) := hp23.map _
      have h2e : (List.range l2.length).map (fun i => is12.getD i 0) = is12 := by
        rw [hlen2]
        exact map_getD_range is12 0
      rw [h2e] at h1p
      exact h1p.trans hp12
    · rw [he23, List.map_map]
      apply List.map_congr_left
      intro a ha
      have halt : a < l2.length := List.mem_range.1 (hp23.mem_iff.1 ha)
      show l2.getD a d = l1.getD (is12.getD a 0) d
      rw [he12]
      exact getD_map_local _ is12 a d 0 (by omega)

/-! ## Full-length extractions and slot-pattern injectivity -/

theorem filterMap_full {α β : Type} (f : α → Option β) (d : β) :
    ∀ L : List α, (L.filterMap f).length = L.length →
      (∀ a ∈ L, f a ≠ none) ∧ L.filterMap f = L.map (fun a => (f a).getD d) := by
  intro L
  induction L with
  | nil => intro _; exact ⟨by simp, by simp⟩
  | cons a t ih =>
    intro hlen
    rw [List.filterMap_cons] at hlen ⊢
    cases hfa : f a with
    | none =>
      rw [hfa] at hlen
      dsimp only at hlen
      have hle := List.length_filterMap_le f t
      simp only [List.length_cons] at hlen
      omega
    | some b =>
      rw [hfa] at hlen
      dsimp only at hlen
      simp only [List.length_cons] at hlen
      obtain ⟨h1, h2⟩ := ih (by omega)
      refine ⟨?_, ?_⟩
      · intro x hx
        rcases List.mem_cons.1 hx with hx | hx
        · rw [hx, hfa]; simp
        · exact h1 x hx
      · simp [List.map_cons, hfa, h2]

theorem extract_full_map (n k : Nat) (mdl : Model)
    (hfull : (extractEsop n k mdl).length = k) :
    (∀ j < k, extractCube n k mdl j ≠ none) ∧
      extractEsop n k mdl =
        (List.range k).map (fun j => (extractCube n k mdl j).getD default) := by
  rw [extractEsop_eq_filterMap] at hfull ⊢
  have hlen : ((List.range k).filterMap (extractCube n k mdl)).length =
      (List.range k).length := by rw [hfull, List.length_range]
  obtain ⟨h1, h2⟩ := filterMap_full (extractCube n k mdl) default (List.range k) hlen
  exact ⟨fun j hj => h1 j (List.mem_range.2 hj), h2⟩

theorem pattern_eq_of_cube_eq (n k : Nat) (hn : n ≤ 32) (m1 m2 : Model) (j1 j2 : Nat)
    (c : Cube) (h1 : extractCube n k m1 j1 = some c) (h2 : extractCube n k m2 j2 = some c) :
    ∀ l < n, m2 (pVar n j2 l) = m1 (pVar n j1 l) ∧
      m2 (qVar n k j2 l) = m1 (qVar n k j1 l) := by
  intro l hl
  obtain ⟨hnv1, hb1⟩ := extractCube_some_spec n k hn m1 j1 c h1
  obtain ⟨hnv2, hb2⟩ := extractCube_some_spec n k hn m2 j2 c h2
  obtain ⟨hm1, hbb1⟩ := hb1 l
  obtain ⟨hm2, hbb2⟩ := hb2 l
  have hmask : (decide (l < n) && xor (m1 (pVar n j1 l)) (m1 (qVar n k j1 l))) =
      (decide (l < n) && xor (m2 (pVar n j2 l)) (m2 (qVar n k j2 l))) := by
    rw [← hm1, ← hm2]
  have hbits : (decide (l < n) && (m1 (pVar n j1 l) && !m1 (qVar n k j1 l))) =
      (decide (l < n) && (m2 (pVar n j2 l) && !m2 (qVar n k j2 l))) := by
    rw [← hbb1, ← hbb2]
  have hnv1l := hnv1 l hl
  have hnv2l := hnv2 l hl
  rw [decide_eq_true hl] at hmask hbits
  cases hp1 : m1 (pVar n j1 l) <;> cases hq1 : m1 (qVar n k j1 l) <;>
    cases hp2 : m2 (pVar n j2 l) <;> cases hq2 : m2 (qVar n k j2 l) <;>
    simp_all

theorem satClause_blocking_false (n k : Nat) (mold mnew : Model) (vs : List Nat)
    (hlen : vs.length = k)
    (hpat : ∀ j < k, ∀ l < n,
      mnew (pVar n (vs.getD j 0) l) = mold (pVar n j l) ∧
      mnew (qVar n k (vs.getD j 0) l) = mold (qVar n k j l)) :
    satClause mnew (blockingClause n k mold vs) = false := by
  rw [blockingClause_eq, satClause]
  simp only [List.any_eq_false]
  intro lit hlit
  obtain ⟨j, hjm, hlit2⟩ := List.mem_flatMap.1 hlit
  obtain ⟨l, hlm, hlit3⟩ := List.mem_flatMap.1 hlit2
  have hj : j < k := by
    have := List.mem_range.1 hjm
    rwa [hlen] at this
  have hl : l < n := List.mem_range.1 hlm
  obtain ⟨hpeq, hqeq⟩ := hpat j hj l hl
  simp only [List.mem_cons, List.not_mem_nil, or_false] at hlit3
  rcases hlit3 with h | h
  · subst h
    by_cases hpold : mold (pVar n j l) = true
    · rw [if_pos hpold, evalLit_negLit mnew _ (pVar_pos n (vs.getD j 0) l), hpeq, hpold]
      simp
    · rw [if_neg hpold, evalLit_posLit mnew _ (pVar_pos n (vs.getD j 0) l), hpeq]
      exact hpold
  · subst h
    by_cases hqold : mold (qVar n k j l) = true
    · rw [if_pos hqold, evalLit_negLit mnew _ (qVar_pos n k (vs.getD j 0) l), hqeq, hqold]
      simp
    · rw [if_neg hqold, evalLit_posLit mnew _ (qVar_pos n k (vs.getD j 0) l), hqeq]
      exact hqold

theorem not_perm_of_blocked (n k : Nat) (hn : n ≤ 32) (mold mnew : Model)
    (C : constraints)
    (hfold : (extractEsop n k mold).length = k)
    (hfnew : (extractEsop n k mnew).length = k)
    (hbc : ∀ vs ∈ (List.range k).permutations, blockingClause n k mold vs ∈ C.clauses)
    (hsat : satC mnew C = true) :
    ¬ (extractEsop n k mnew).Perm (extractEsop n k mold) := by
  intro hperm
  obtain ⟨hnemNew, hmapNew⟩ := extract_full_map n k mnew hfnew
  obtain ⟨hnemOld, hmapOld⟩ := extract_full_map n k mold hfold
  obtain ⟨is, hisperm, hiseq⟩ := perm_index default hperm
  rw [hfnew] at hisperm
  have hislen : is.length = k := by
    have := hisperm.length_eq
    rwa [List.length_range] at this
  have hismem : ∀ i ∈ is, i < k := fun i hi =>
    List.mem_range.1 (hisperm.mem_iff.1 hi)
  have hcube : ∀ j < k, (extractCube n k mold j).getD default =
      (extractCube n k mnew (is.getD j 0)).getD default := by
    intro j hj
    have h1 : (extractEsop n k mold).getD j default =
        (extractCube n k mold j).getD default := by
      rw [hmapOld]
      rw [getD_map_local _ (List.range k) j default 0 (by simpa using hj)]
      rw [range_getD k j hj]
    have h2 : (extractEsop n k mold).getD j default =
        (extractEsop n k mnew).getD (is.getD j 0) default := by
      rw [hiseq]
      exact getD_map_local _ is j default 0 (by omega)
    have h3 : (extractEsop n k mnew).getD (is.getD j 0) default =
        (extractCube n k mnew (is.getD j 0)).getD default := by
      have hjk : is.getD j 0 < k := by
        apply hismem
        rw [getD_eq_getElem_local is j 0 (by omega)]
        exact List.getElem_mem _
      rw [hmapNew]
      rw [getD_map_local _ (List.range k) (is.getD j 0) default 0 (by simpa using hjk)]
      rw [range_getD k _ hjk]
    rw [← h1, h2, h3]
  have hpat : ∀ j < k, ∀ l < n,
      mnew (pVar n (is.getD j 0) l) = mold (pVar n j l) ∧
      mnew (qVar n k (is.getD j 0) l) = mold (qVar n k j l) := by
    intro j hj
    have hjk : is.getD j 0 < k := by
      apply hismem
      rw [getD_eq_getElem_local is j 0 (by omega)]
      exact List.getElem_mem _
    obtain ⟨cold, hcold⟩ := Option.ne_none_iff_exists'.1 (hnemOld j hj)
    obtain ⟨cnew, hcnew⟩ := Option.ne_none_iff_exists'.1 (hnemNew (is.getD j 0) hjk)
    have hceq : cold = cnew := by
      have := hcube j hj
      rw [hcold, hcnew] at this
      simpa using this
    subst hceq
    exact pattern_eq_of_cube_eq n k hn mold mnew j (is.getD j 0) cold hcold hcnew
  have hmemperm : is ∈ (List.range k).permutations :=
    List.mem_permutations.2 hisperm
  have hbcmem := hbc is hmemperm
  have hsatbc := ((satC_iff mnew C).1 hsat).1 _ hbcmem
  rw [satClause_blocking_false n k mold mnew is hislen hpat] at hsatbc
  exact absurd hsatbc (by simp)

/-! ## At the first satisfiable size no term is void -/

theorem extract_len_le (n k : Nat) (mdl : Model) : (extractEsop n k mdl).length ≤ k := by
  rw [extractEsop_eq_filterMap]
  calc ((List.range k).filterMap (extractCube n k mdl)).length
      ≤ (List.range k).length := List.length_filterMap_le _ _
    _ = k := List.length_range k

theorem extract_full_of_unsatBelow (binary : List Char) (n k : Nat) (hn32 : n ≤ 32)
    (hub : UnsatBelow binary n k) (mdl : Model)
    (hsat : satC mdl (encodeRows binary n k) = true)
    (hne : extractEsop n k mdl ≠ []) :
    (extractEsop n k mdl).length = k := by
  by_cases hzero : n = 0
  · subst hzero
    have hcube : extractCube 0 k mdl = fun _ => some ⟨0, 0⟩ := funext fun j => rfl
    rw [extractEsop_eq_filterMap, hcube]
    have hfm : (List.range k).filterMap (fun _ : Nat => some (⟨0, 0⟩ : Cube)) =
        (List.range k).map (fun _ => (⟨0, 0⟩ : Cube)) := by
      show (List.range k).filterMap (some ∘ fun _ : Nat => (⟨0, 0⟩ : Cube)) = _
      rw [List.filterMap_eq_map]
    rw [hfm, List.length_map, List.length_range]
  · have hn1 : 1 ≤ n := by omega
    have hle := extract_len_le n k mdl
    by_contra hne2
    have hlt : (extractEsop n k mdl).length < k := by omega
    have hagree := decode_sound binary n k hn32 mdl hsat
    have hpos : 1 ≤ (extractEsop n k mdl).length := by
      cases hE : extractEsop n k mdl
      · exact absurd hE hne
      · simp [hE]
    exact hub (extractEsop n k mdl).length hpos hlt
      (instSat_of_esop binary n _ hn1 hpos (extractEsop n k mdl) (le_refl _) hagree)

/-! ## Single-solution mode never accumulates -/

theorem innerLoop_one_exhausted (solve : constraints → Option Model) (n k : Nat) :
    ∀ (fuel : Nat) (C : constraints) (es es2 : esops_t),
      innerLoop solve n k true fuel C es = some (InnerRes.exhausted es2) → es2 = es := by
  intro fuel
  induction fuel with
  | zero => intro C es es2 h; exact absurd h (by rw [innerLoop]; simp)
  | succ f ih =>
    intro C es es2 h
    rw [innerLoop] at h
    cases hs : solve C with
    | none =>
      rw [hs] at h
      dsimp only at h
      simp only [Option.some.injEq, InnerRes.exhausted.injEq] at h
      exact h.symm
    | some mdl =>
      rw [hs] at h
      dsimp only at h
      by_cases he : extractEsop n k mdl = []
      · rw [if_pos he] at h; simp at h
      · rw [if_neg he, if_pos rfl] at h
        simp at h

/-! ## Enumeration mode keeps pairwise non-permuted solutions -/

theorem innerLoop_pairwise (solve : constraints → Option Model) (binary : List Char)
    (n k : Nat) (hn32 : n ≤ 32) (hsound : SolverSound solve)
    (hfull : ∀ mdl, satC mdl (encodeRows binary n k) = true →
      extractEsop n k mdl ≠ [] → (extractEsop n k mdl).length = k) :
    ∀ (fuel : Nat) (C : constraints) (es es2 : esops_t),
      ClausesExtend (encodeRows binary n k) C →
      (∀ E ∈ es, ∃ mdl, satC mdl (encodeRows binary n k) = true ∧
        (extractEsop n k mdl).length = k ∧ E.Perm (extractEsop n k mdl) ∧
        ∀ vs ∈ (List.range k).permutations, blockingClause n k mdl vs ∈ C.clauses) →
      es.Pairwise (fun a b => ¬ a.Perm b) →
      innerLoop solve n k false fuel C es = some (InnerRes.exhausted es2) →
      es2.Pairwise (fun a b => ¬ a.Perm b) := by
  intro fuel
  induction fuel with
  | zero => intro C es es2 _ _ _ h; exact absurd h (by rw [innerLoop]; simp)
  | succ f ih =>
    intro C es es2 hext hinv hpw h
    rw [innerLoop] at h
    cases hs : solve C with
    | none =>
      rw [hs] at h
      dsimp only at h
      simp only [Option.some.injEq, InnerRes.exhausted.injEq] at h
      rw [← h]
      exact hpw
    | some mdl =>
      rw [hs] at h
      dsimp only at h
      by_cases he : extractEsop n k mdl = []
      · rw [if_pos he] at h; simp at h
      · rw [if_neg he, if_neg (by simp)] at h
        have hsatC := hsound C mdl hs
        have hsatk : satC mdl (encodeRows binary n k) = true :=
          satClause_of_extend mdl _ C hext hsatC
        have hflen : (extractEsop n k mdl).length = k := hfull mdl hsatk he
        apply ih (addBlocking n k mdl C) (es ++ [sortCubes n (extractEsop n k mdl)]) es2
        · exact hext.trans (clausesExtend_addBlocking n k mdl C)
        · intro E hE
          rcases List.mem_append.1 hE with hE | hE
          · obtain ⟨m0, h1, h2, h3, h4⟩ := hinv E hE
            exact ⟨m0, h1, h2, h3, fun vs hvs =>
              (clausesExtend_addBlocking n k mdl C).1 _ (h4 vs hvs)⟩
          · rw [List.mem_singleton.1 hE]
            exact ⟨mdl, hsatk, hflen, sortCubes_perm n _, fun vs hvs =>
              blocking_mem_addBlocking n k mdl C vs hvs⟩
        · apply List.pairwise_append.2
          refine ⟨hpw, by simp, ?_⟩
          intro a ha b hb
          rw [List.mem_singleton.1 hb]
          obtain ⟨m0, h1, h2, h3, h4⟩ := hinv a ha
          intro hcontra
          have hperm2 : (extractEsop n k mdl).Perm (extractEsop n k m0) :=
            (sortCubes_perm n _).symm.trans (hcontra.symm.trans h3)
          exact not_perm_of_blocked n k hn32 m0 mdl C h2 hflen h4 hsatC hperm2
        · exact h

/-! ## Full characterization of the outer loop under a sound, complete solver -/

theorem kLoop_master (solve : constraints → Option Model) (binary : List Char) (n : Nat)
    (one : Bool) (hn32 : n ≤ 32) (hsound : SolverSound solve)
    (hcomp : SolverComplete solve) :
    ∀ (cnt k : Nat), 1 ≤ k → UnsatBelow binary n k →
      ∀ res, kLoopAux solve binary n one (List.range' k cnt) [] = SynthResult.ok res →
      (res = [] ∧ UnsatBelow binary n (k + cnt)) ∨
      (∃ kr, 1 ≤ kr ∧ k ≤ kr ∧ kr < k + cnt ∧ UnsatBelow binary n kr ∧
        res ≠ [] ∧ res.Pairwise (fun a b => ¬ a.Perm b) ∧
        (res = [[]] ∨ ∀ E ∈ res, ∃ mdl, satC mdl (encodeRows binary n kr) = true ∧
          E.Perm (extractEsop n kr mdl) ∧ E.length = kr)) := by
  intro cnt
  induction cnt with
  | zero =>
    intro k hk hub res h
    rw [List.range'_zero, kLoopAux] at h
    simp only [SynthResult.ok.injEq] at h
    exact Or.inl ⟨h.symm, by simpa using hub⟩
  | succ cnt ih =>
    intro k hk hub res h
    rw [List.range'_succ, kLoopAux] at h
    cases hin : innerLoop solve n k one (innerFuel n k) (encodeRows binary n k) [] with
    | none => rw [hin] at h; simp at h
    | some r =>
      rw [hin] at h
      cases r with
      | done r2 =>
        simp only [SynthResult.ok.injEq] at h
        obtain ⟨C2, mdl, hext, hsolve, hres⟩ := innerLoop_done solve n k one _ _ _ _ hin
        have hsatk : satC mdl (encodeRows binary n k) = true :=
          satClause_of_extend mdl _ C2 hext (hsound C2 mdl hsolve)
        right
        refine ⟨k, hk, le_refl k, by omega, hub, ?_, ?_, ?_⟩
        · rw [← h, hres]; simp
        · rw [← h, hres]; simp
        · by_cases he : extractEsop n k mdl = []
          · left
            rw [← h, hres, he]
          · right
            intro E hE
            rw [← h, hres] at hE
            rw [List.mem_singleton.1 hE]
            exact ⟨mdl, hsatk, List.Perm.refl _,
              extract_full_of_unsatBelow binary n k hn32 hub mdl hsatk he⟩
      | exhausted es =>
        dsimp only at h
        by_cases hlen : es.length > 0
        · rw [if_pos hlen] at h
          simp only [SynthResult.ok.injEq] at h
          cases hone : one
          · right
            refine ⟨k, hk, le_refl k, by omega, hub, ?_, ?_, ?_⟩
            · rw [← h]
              intro hnil
              rw [hnil] at hlen
              simp at hlen
            · rw [← h]
              rw [hone] at hin
              apply innerLoop_pairwise solve binary n k hn32 hsound
                (fun mdl hs hne => extract_full_of_unsatBelow binary n k hn32 hub mdl hs hne)
                (innerFuel n k) (encodeRows binary n k) [] es
                (ClausesExtend.refl _) (by simp) (by simp) hin
            · right
              intro E hE
              rw [← h] at hE
              rcases innerLoop_exhausted_mem solve n k one _ _ _ _ hin E hE with
                hmem | ⟨hneE, C2, mdl, hext, hsolve, hsort⟩
              · exact absurd hmem (by simp)
              · have hsatk : satC mdl (encodeRows binary n k) = true :=
                  satClause_of_extend mdl _ C2 hext (hsound C2 mdl hsolve)
                have hneex : extractEsop n k mdl ≠ [] := by
                  intro hc
                  apply hneE
                  rw [hsort, hc]
                  rfl
                have hfl := extract_full_of_unsatBelow binary n k hn32 hub mdl hsatk hneex
                refine ⟨mdl, hsatk, ?_, ?_⟩
                · rw [hsort]
                  exact sortCubes_perm n _
                · rw [hsort, (sortCubes_perm n _).length_eq, hfl]
          · rw [hone] at hin
            have := innerLoop_one_exhausted solve n k _ _ _ _ hin
            rw [this] at hlen
            simp at hlen
        · rw [if_neg hlen] at h
          have hes : es = [] := by
            cases es
            · rfl
            · simp at hlen
          rw [hes] at h hin
          have hnone := innerLoop_exhausted_nil solve n k one _ _ hin
          have hunsat := hcomp _ hnone
          have hub2 : UnsatBelow binary n (k + 1) := by
            intro j h1 h2
            by_cases hjk : j < k
            · exact hub j h1 hjk
            · have hjk2 : j = k := by omega
              subst hjk2
              rintro ⟨mdl, hmdl⟩
              rw [hunsat mdl] at hmdl
              exact absurd hmdl (by simp)
          rcases ih (k + 1) (by omega) hub2 res h with ⟨h1, h2⟩ | ⟨kr, hx1, hx2, hx3, hx4⟩
          · left
            refine ⟨h1, ?_⟩
            have hadd : k + 1 + cnt = k + (cnt + 1) := by omega
            rwa [hadd] at h2
          · right
            exact ⟨kr, hx1, by omega, by omega, hx4⟩

/-! ## Remaining claim theorems: minimality, enumeration distinctness,
constant zero -/

theorem map_add_one_range (m : Nat) : (List.range m).map (· + 1) = List.range' 1 m := by
  rw [List.range'_eq_map_range]
  apply List.map_congr_left
  intro a _
  omega

theorem getD_replicate (c d : Char) :
    ∀ (L m : Nat), m < L → (List.replicate L c).getD m d = c := by
  intro L
  induction L with
  | zero => intro m hm; omega
  | succ L ih =>
    intro m hm
    rw [List.replicate_succ]
    cases m with
    | zero => rw [List.getD_cons_zero]
    | succ m => rw [List.getD_cons_succ]; exact ih m (by omega)

theorem esopEval_singleton (c : Cube) (n m : Nat) : esopEval [c] n m = c.covers n m := by
  simp [esopEval]

theorem lt_two_pow_of_high_false (x n : Nat) (h : ∀ i, n ≤ i → x.testBit i = false) :
    x < 2 ^ n := by
  have hx : x = x % 2 ^ n := by
    apply Nat.eq_of_testBit_eq
    intro i
    rw [Nat.testBit_mod_two_pow]
    by_cases hi : i < n
    · simp [hi]
    · rw [h i (by omega)]
      simp [hi]
  rw [hx]
  exact Nat.mod_lt x (Nat.pos_pow_of_pos n (by norm_num))

/-- Claim C2 (amended): for accepted inputs with `1 ≤ n ≤ 31` and a sound
and complete solver, whenever the call returns a result that is neither
empty nor the single empty ESOP, all returned ESOPs have one common cube
count `kr` with `1 ≤ kr ≤ maximum_cubes`; some ESOP of at most `kr` terms
computes the table, and no ESOP of at most `j` terms does for any
`j ∈ [1, kr)` — `kr` is the first size at which the outer loop stops. -/
theorem c2_minimal_size (solve : constraints → Option Model) (binary : List Char)
    (config : Config) (n : Nat) (res : esops_t)
    (hsound : SolverSound solve) (hcomp : SolverComplete solve)
    (hlen : binary.length = 2 ^ n) (hn1 : 1 ≤ n) (hn : n ≤ 31)
    (hrun : exact_synthesis_from_binary_string solve binary config = SynthResult.ok res)
    (hne : res ≠ []) (hnemp : res ≠ [[]]) :
    ∃ kr, 1 ≤ kr ∧ kr ≤ config.maximum_cubes ∧ (∀ E ∈ res, E.length = kr) ∧
      (∃ E2 : esop_t, E2.length ≤ kr ∧ AgreesTable binary n E2) ∧
      (∀ j, 1 ≤ j → j < kr → ¬ ∃ E2 : esop_t, E2.length ≤ j ∧ AgreesTable binary n E2) := by
  rw [driver_accepts solve binary config n hlen (by omega), map_add_one_range] at hrun
  rcases kLoop_master solve binary n config.one_esop (by omega) hsound hcomp
      config.maximum_cubes 1 (le_refl 1) (fun j h1 h2 => absurd h2 (by omega)) res hrun with
    ⟨hnil, _⟩ | ⟨kr, hk1, _, hk3, hub, _, _, hchar⟩
  · exact absurd hnil hne
  · rcases hchar with hemp | hchar
    · exact absurd hemp hnemp
    · refine ⟨kr, hk1, by omega, ?_, ?_, ?_⟩
      · intro E hE
        obtain ⟨mdl, _, _, hlenE⟩ := hchar E hE
        exact hlenE
      · obtain ⟨E, hE⟩ := List.exists_mem_of_ne_nil res hne
        obtain ⟨mdl, hsat, hperm, hlenE⟩ := hchar E hE
        refine ⟨E, le_of_eq hlenE, ?_⟩
        have hrows := decode_sound binary n kr (by omega) mdl hsat
        intro m hm
        exact agreesAt_perm hperm.symm binary n m
          (((agreesOnRows_iff_table binary n hn _).1 hrows) m hm)
      · rintro j hj1 hj2 ⟨E2, hE2len, hE2tab⟩
        exact hub j hj1 hj2 (instSat_of_esop binary n j hn1 hj1 E2 hE2len
          ((agreesOnRows_iff_table binary n hn E2).2 hE2tab))

theorem c2_minimal_size_witness :
    SolverSound bruteSolve ∧ SolverComplete bruteSolve ∧
    (['0', '1'] : List Char).length = 2 ^ 1 ∧ (1 : Nat) ≤ 1 ∧ (1 : Nat) ≤ 31 ∧
    exact_synthesis_from_binary_string bruteSolve ['0', '1'] {} =
      SynthResult.ok [[⟨1, 1⟩]] ∧
    ([[⟨1, 1⟩]] : esops_t) ≠ [] ∧ ([[⟨1, 1⟩]] : esops_t) ≠ [[]] ∧
    ∃ kr, 1 ≤ kr ∧ kr ≤ Config.maximum_cubes {} ∧
      (∀ E ∈ ([[⟨1, 1⟩]] : esops_t), E.length = kr) ∧
      (∃ E2 : esop_t, E2.length ≤ kr ∧ AgreesTable ['0', '1'] 1 E2) ∧
      (∀ j, 1 ≤ j → j < kr →
        ¬ ∃ E2 : esop_t, E2.length ≤ j ∧ AgreesTable ['0', '1'] 1 E2) := by
  have hrun : exact_synthesis_from_binary_string bruteSolve ['0', '1'] {} =
      SynthResult.ok [[⟨1, 1⟩]] := by
    rw [driver_accepts bruteSolve ['0', '1'] {} 1 rfl (by norm_num)]
    decide
  refine ⟨bruteSolve_sound, bruteSolve_complete, rfl, le_refl 1, by norm_num, hrun,
    by simp, by simp, ?_⟩
  exact c2_minimal_size bruteSolve ['0', '1'] {} 1 [[⟨1, 1⟩]] bruteSolve_sound
    bruteSolve_complete rfl (le_refl 1) (by norm_num) hrun (by simp) (by simp)

theorem c2_counterexample :
    exact_synthesis_from_binary_string bruteSolve ['0', '0'] {} = SynthResult.ok [[]] ∧
    ¬ ∃ kr, 1 ≤ kr ∧ ∀ E ∈ ([[]] : esops_t), E.length = kr := by
  constructor
  · rw [driver_accepts bruteSolve ['0', '0'] {} 1 rfl (by norm_num)]
    decide
  · rintro ⟨kr, h1, h2⟩
    have h3 := h2 [] (by simp)
    simp at h3
    omega

/-- Claim C5: with the solver behaving as the spec's oracle (sound and
complete), in enumeration mode no two ESOPs of the returned sequence are
cube-order rearrangements of each other: the cube multisets are pairwise
distinct, which the k!-fold blocking clauses enforce. -/
theorem c5_enumeration_pairwise_distinct (solve : constraints → Option Model)
    (binary : List Char) (config : Config) (res : esops_t)
    (hsound : SolverSound solve) (hcomp : SolverComplete solve)
    (hone : config.one_esop = false)
    (hrun : exact_synthesis_from_binary_string solve binary config = SynthResult.ok res) :
    res.Pairwise (fun a b => ¬ a.Perm b) := by
  by_cases hacc : binary.length = 2 ^ Nat.log2 binary.length ∧
      Nat.log2 binary.length ≤ 32
  · rw [driver_accepts solve binary config (Nat.log2 binary.length) hacc.1 hacc.2,
      map_add_one_range] at hrun
    rcases kLoop_master solve binary (Nat.log2 binary.length) config.one_esop hacc.2
        hsound hcomp config.maximum_cubes 1 (le_refl 1)
        (fun j h1 h2 => absurd h2 (by omega)) res hrun with
      ⟨hnil, _⟩ | ⟨kr, _, _, _, _, _, hpw, _⟩
    · rw [hnil]
      exact List.Pairwise.nil
    · exact hpw
  · rw [exact_synthesis_from_binary_string, if_neg hacc] at hrun
    exact absurd hrun (by simp)

theorem c5_enumeration_pairwise_distinct_witness :
    SolverSound bruteSolve ∧ SolverComplete bruteSolve ∧
    Config.one_esop {one_esop := false} = false ∧
    exact_synthesis_from_binary_string bruteSolve ['0', '0'] {one_esop := false} =
      SynthResult.ok [[]] ∧
    ([[]] : esops_t).Pairwise (fun a b => ¬ a.Perm b) := by
  have hrun : exact_synthesis_from_binary_string bruteSolve ['0', '0'] {one_esop := false} =
      SynthResult.ok [[]] := by
    rw [driver_accepts bruteSolve ['0', '0'] {one_esop := false} 1 rfl (by norm_num)]
    decide
  exact ⟨bruteSolve_sound, bruteSolve_complete, rfl, hrun,
    c5_enumeration_pairwise_distinct bruteSolve ['0', '0'] {one_esop := false}
      [[]] bruteSolve_sound bruteSolve_complete rfl hrun⟩

/-- Claim C7 (amended): for `1 ≤ n ≤ 31`, a sound and complete solver, and
`maximum_cubes ≥ 1`, the all-zero table of length `2^n` returns the
single-element sequence containing the empty ESOP, found in the very first
iteration (`k = 1`) through the empty-cover special case. -/
theorem c7_constant_zero_empty (solve : constraints → Option Model) (config : Config)
    (n : Nat) (hsound : SolverSound solve) (hcomp : SolverComplete solve)
    (hn1 : 1 ≤ n) (hn : n ≤ 31) (hmax : 1 ≤ config.maximum_cubes) :
    exact_synthesis_from_binary_string solve (List.replicate (2 ^ n) '0') config =
      SynthResult.ok [[]] := by
  have hlenb : (List.replicate (2 ^ n) '0').length = 2 ^ n := List.length_replicate _ _
  rw [driver_accepts solve (List.replicate (2 ^ n) '0') config n hlenb (by omega)]
  obtain ⟨m0, hm0⟩ : ∃ m0, config.maximum_cubes = m0 + 1 :=
    ⟨config.maximum_cubes - 1, by omega⟩
  rw [map_add_one_range, hm0, List.range'_succ, kLoopAux]
  have hgetD : ∀ m, m < 2 ^ n → (List.replicate (2 ^ n) '0').getD m ' ' = '0' :=
    fun m hm => getD_replicate '0' ' ' (2 ^ n) m hm
  have hagree : AgreesOnRows (List.replicate (2 ^ n) '0') n [] := by
    intro m hm
    rw [rowList_eq_range n hn] at hm
    have h0 := hgetD m (List.mem_range.1 hm)
    constructor
    · intro h1
      rw [h0] at h1
      exact absurd h1 (by decide)
    · intro _
      rfl
  have hsat1 : InstSat (List.replicate (2 ^ n) '0') n 1 :=
    instSat_of_esop (List.replicate (2 ^ n) '0') n 1 hn1 (le_refl 1) [] (by norm_num) hagree
  have hextract : ∀ mdl, satC mdl (encodeRows (List.replicate (2 ^ n) '0') n 1) = true →
      extractEsop n 1 mdl = [] := by
    intro mdl hsat
    cases hx : extractCube n 1 mdl 0 with
    | none =>
      rw [extractEsop_eq_filterMap]
      have hr1 : List.range 1 = [0] := rfl
      rw [hr1, List.filterMap_cons, hx, List.filterMap_nil]
    | some c =>
      exfalso
      have hagree2 := decode_sound (List.replicate (2 ^ n) '0') n 1 (by omega) mdl hsat
      have hE : extractEsop n 1 mdl = [c] := by
        rw [extractEsop_eq_filterMap]
        have hr1 : List.range 1 = [0] := rfl
        rw [hr1, List.filterMap_cons, hx, List.filterMap_nil]
      obtain ⟨hnv, hbit⟩ := extractCube_some_spec n 1 (by omega) mdl 0 c hx
      have hmasklt : c.mask < 2 ^ n := by
        apply lt_two_pow_of_high_false
        intro i hi
        rw [(hbit i).1]
        simp [show ¬ i < n by omega]
      have hmlt : c.bits &&& c.mask < 2 ^ n := lt_of_le_of_lt Nat.and_le_right hmasklt
      have hcov : c.covers n (c.bits &&& c.mask) = true := by
        apply (covers_char c n _).2
        intro l hl hmask
        rw [Nat.testBit_and, hmask, Bool.and_true]
      have hrow : (c.bits &&& c.mask) ∈ rowList n := by
        rw [rowList_eq_range n hn]
        exact List.mem_range.2 hmlt
      have hev := (hagree2 _ hrow).2 (hgetD _ hmlt)
      rw [hE, esopEval_singleton, hcov] at hev
      exact absurd hev (by simp)
  cases hs : solve (encodeRows (List.replicate (2 ^ n) '0') n 1) with
  | none =>
    exfalso
    obtain ⟨mdl, hmdl⟩ := hsat1
    rw [hcomp _ hs mdl] at hmdl
    exact absurd hmdl (by simp)
  | some mdl =>
    have hsatk := hsound _ mdl hs
    have hempty := hextract mdl hsatk
    have hloop : innerLoop solve n 1 config.one_esop (innerFuel n 1)
        (encodeRows (List.replicate (2 ^ n) '0') n 1) [] =
        some (InnerRes.done [[]]) := by
      rw [innerFuel, innerLoop, hs]
      dsimp only
      rw [if_pos hempty, hempty]
    rw [hloop]

theorem c7_constant_zero_empty_witness :
    SolverSound bruteSolve ∧ SolverComplete bruteSolve ∧ (1 : Nat) ≤ 1 ∧ (1 : Nat) ≤ 31 ∧
    1 ≤ Config.maximum_cubes {} ∧
    exact_synthesis_from_binary_string bruteSolve (List.replicate (2 ^ 1) '0') {} =
      SynthResult.ok [[]] :=
  ⟨bruteSolve_sound, bruteSolve_complete, le_refl 1, by norm_num, by norm_num,
    c7_constant_zero_empty bruteSolve {} 1 bruteSolve_sound bruteSolve_complete
      (le_refl 1) (by norm_num) (by norm_num)⟩

theorem c7_counterexample :
    exact_synthesis_from_binary_string bruteSolve ['0'] {} =
      SynthResult.ok [[⟨0, 0⟩, ⟨0, 0⟩]] ∧
    SynthResult.ok [[(⟨0, 0⟩ : Cube), ⟨0, 0⟩]] ≠ SynthResult.ok [([] : esop_t)] := by
  constructor
  · rw [driver_accepts bruteSolve ['0'] {} 0 rfl (by norm_num)]
    decide
  · decide

end Esop
